import Mathlib

/-!
# Verification of the django-rusty-templates front end

A shallow embedding, in Lean 4, of the template front end of the
`django-rusty-templates` repository: the structural lexer (`src/lex.rs`,
`Lexer`), the expression lexer (`src/lex.rs`, `VariableLexer`) and the
parser (`src/parse.rs`, `Parser`), together with theorems about them.

Modelling conventions:
* A Rust `&str` is modelled as a `List Char` (`Str`); all offsets and span
  arithmetic are in UTF-8 bytes, as in the source (`str::len`, `str::find`
  return byte counts).  `charBytes` is the UTF-8 byte width of a scalar.
* Rust slicing `&s[a..b]` panics when `a > b`, when an index exceeds the
  length, or when an index is not a character boundary.  It is modelled by
  `byteSlice`/`byteDrop`/`byteTake`, which return `none` exactly in the
  panicking cases.  A `none`/`.panicked` result anywhere in the embedding
  means the Rust program panics.
* `todo!()` and `unimplemented!()` abort the process; they are modelled as
  the panicking result as well.
* Arbitrary-precision integers (`num_bigint::BigInt`) are modelled as `Int`.
  An `f64` literal value is modelled by the exact rational value of the
  decimal literal; for every literal considered in the theorems below this
  value is exactly representable as a double, so no rounding is involved.
-/

set_option autoImplicit false

namespace DjangoRustyTemplates

/-- Rust `&str`, modelled as its sequence of Unicode scalar values. -/
abbrev Str := List Char

/-- The UTF-8 byte width of one scalar value (Rust `char::len_utf8`). -/
def charBytes (c : Char) : Nat := c.utf8Size

/-- `str::len`: the length of a string in UTF-8 bytes. -/
def bytesLen : Str → Nat
  | [] => 0
  | c :: s => charBytes c + bytesLen s

/-- Rust `&s[n..]`: drop `n` bytes from the front.  `none` when `n` is out of
bounds or not a character boundary (the cases where Rust panics). -/
def byteDrop : Str → Nat → Option Str
  | s, 0 => some s
  | [], _ => none
  | c :: s, n => if charBytes c ≤ n then byteDrop s (n - charBytes c) else none

/-- Rust `&s[..n]`: take the first `n` bytes.  `none` when `n` is out of
bounds or not a character boundary. -/
def byteTake : Str → Nat → Option Str
  | _, 0 => some []
  | [], _ => none
  | c :: s, n =>
    if charBytes c ≤ n then (byteTake s (n - charBytes c)).map (c :: ·) else none

/-- Rust `&s[a..b]`.  `none` exactly when Rust panics. -/
def byteSlice (s : Str) (a b : Nat) : Option Str :=
  if a ≤ b then (byteDrop s a).bind (fun r => byteTake r (b - a)) else none

/-- `str::find(pattern)`: byte index of the first occurrence of `pat`. -/
def strFind (pat : Str) : Str → Option Nat
  | [] => if pat.isEmpty then some 0 else none
  | c :: s =>
    if pat.isPrefixOf (c :: s) then some 0
    else (strFind pat s).map (· + charBytes c)

/-- `str::find(predicate)`: byte index of the first scalar satisfying `p`. -/
def strFindP (p : Char → Bool) : Str → Option Nat
  | [] => none
  | c :: s => if p c then some 0 else (strFindP p s).map (· + charBytes c)

/-- Rust `char::is_whitespace` (the Unicode `White_Space` property). -/
def rustIsWhitespace (c : Char) : Bool :=
  c.val = 0x09 || c.val = 0x0A || c.val = 0x0B || c.val = 0x0C || c.val = 0x0D ||
  c.val = 0x20 || c.val = 0x85 || c.val = 0xA0 || c.val = 0x1680 ||
  (0x2000 ≤ c.val && c.val ≤ 0x200A) ||
  c.val = 0x2028 || c.val = 0x2029 || c.val = 0x202F || c.val = 0x205F ||
  c.val = 0x3000

/-- `str::trim_start`. -/
def trimStart (s : Str) : Str := s.dropWhile rustIsWhitespace

/-- `str::trim_end`. -/
def trimEnd (s : Str) : Str := (s.reverse.dropWhile rustIsWhitespace).reverse

/-- `str::trim`. -/
def trim (s : Str) : Str := trimEnd (trimStart s)

/-- `str::is_ascii_digit`. -/
def isAsciiDigit (c : Char) : Bool := '0' ≤ c && c ≤ '9'

/-! ## Structural lexer (`src/lex.rs`, `Lexer`)

Token spans `at_` are `(start, end)` byte pairs, exactly as produced by the
iterator in `src/lex.rs` (see its tests, e.g. `(5, 18)` for the tag in
`test_django_example`). -/

/-- `START_TAG_LEN` in `src/lex.rs`. -/
def START_TAG_LEN : Nat := 2

/-- `END_TAG_LEN` in `src/lex.rs`. -/
def END_TAG_LEN : Nat := 2

/-- The string `"{%"`. -/
def openTagStr : Str := "\x7b%".data

/-- The string `"{{"`. -/
def openVarStr : Str := "\x7b\x7b".data

/-- The string `"{#"`. -/
def openCommentStr : Str := "\x7b#".data

/-- The string `"}}"`. -/
def closeVarStr : Str := "\x7d\x7d".data

/-- The string `"%}"`. -/
def closeTagStr : Str := "%\x7d".data

/-- The string `"#}"`. -/
def closeCommentStr : Str := "#\x7d".data

/-- `enum EndTag` from `src/lex.rs` (`Variable`/`Tag`/`Comment`). -/
inductive EndTag where
  | var
  | tag
  | comment
deriving DecidableEq, Repr

/-- `enum Token<'t>` from `src/lex.rs`.  Each variant carries its borrowed
content (`text`/`variable`/`tag`/`comment`) and its span `at`. -/
inductive Token where
  | text (text : Str) (at_ : Nat × Nat)
  | var (variable_ : Str) (at_ : Nat × Nat)
  | tag (tag : Str) (at_ : Nat × Nat)
  | comment (comment : Str) (at_ : Nat × Nat)
deriving DecidableEq, Repr

/-- The span of a token. -/
def Token.at_ : Token → Nat × Nat
  | .text _ a => a
  | .var _ a => a
  | .tag _ a => a
  | .comment _ a => a

/-- The borrowed content of a token. -/
def Token.content : Token → Str
  | .text s _ => s
  | .var s _ => s
  | .tag s _ => s
  | .comment s _ => s

/-- `struct Lexer<'t>` from `src/lex.rs`. -/
structure Lexer where
  rest : Str
  byte : Nat
  verbatim : Option Str
deriving DecidableEq, Repr

/-- `Lexer::new`. -/
def Lexer.new (template : Str) : Lexer := ⟨template, 0, none⟩

/-- Minimum of two optional indices (used to model
`[a, b, c].iter().filter_map(|n| *n).min()`). -/
def optMin2 : Option Nat → Option Nat → Option Nat
  | none, b => b
  | some a, none => some a
  | some a, some b => some (min a b)

/-- `Lexer::lex_text`.  `none` models a Rust slicing panic (none is actually
reachable here; the checks mirror Rust's slice-boundary checks). -/
def Lexer.lexText (l : Lexer) : Option (Token × Lexer) :=
  let nextTag := strFind openTagStr l.rest
  let nextVariable := strFind openVarStr l.rest
  let nextComment := strFind openCommentStr l.rest
  let next := optMin2 nextTag (optMin2 nextVariable nextComment)
  let start := l.byte
  match next with
  | none =>
    let text := l.rest
    let byte' := start + bytesLen text
    some (.text text (start, byte'), { l with rest := [], byte := byte' })
  | some n =>
    match byteTake l.rest n, byteDrop l.rest n with
    | some text, some rest' =>
      let byte' := start + bytesLen text
      some (.text text (start, byte'), { l with rest := rest', byte := byte' })
    | _, _ => none

/-- `Lexer::lex_text_to_end`. -/
def Lexer.lexTextToEnd (l : Lexer) : Token × Lexer :=
  let start := l.byte
  let text := l.rest
  let byte' := start + bytesLen text
  (.text text (start, byte'), { l with rest := [], byte := byte' })

/-- `Lexer::lex_tag`. -/
def Lexer.lexTag (l : Lexer) (endTag : EndTag) : Option (Token × Lexer) :=
  let endStr :=
    match endTag with
    | .var => closeVarStr
    | .tag => closeTagStr
    | .comment => closeCommentStr
  let start := l.byte
  match strFind endStr l.rest with
  | none =>
    let byte' := l.byte + bytesLen l.rest
    some (.text l.rest (start, byte'), { l with rest := [], byte := byte' })
  | some n =>
    match byteSlice l.rest START_TAG_LEN n, byteDrop l.rest (n + END_TAG_LEN) with
    | some tag, some rest' =>
      let byte' := l.byte + (bytesLen tag + 4)
      let a := (start, byte')
      let tok : Token :=
        match endTag with
        | .var => .var tag a
        | .tag => .tag tag a
        | .comment => .comment tag a
      some (tok, { l with rest := rest', byte := byte' })
    | _, _ => none

/-- The closing-tag test from `Lexer::lex_verbatim`:
`inner.len() < 3 || &inner[3..] != verbatim` (negated: `some true` means the
candidate closes the verbatim block).  `none` models the panic when byte
index 3 of `inner` is not a character boundary. -/
def isCloserCheck (inner verbatim : Str) : Option Bool :=
  if bytesLen inner < 3 then some false
  else
    match byteDrop inner 3 with
    | none => none
    | some suffix => some (suffix == verbatim)

/-- Outcome of one lexing operation: `fuelOut` is a modelling artifact (the
fuel bound of a loop was reached — never happens for the canonical fuel,
which exceeds the byte length that each iteration strictly decreases),
`panicked` models a Rust panic, and `ok` a normal result. -/
inductive LexRes (α : Type) where
  | fuelOut
  | panicked
  | ok (val : α)
deriving DecidableEq, Repr

/-- The scanning loop of `Lexer::lex_verbatim`.  `l.rest`/`l.byte` are the
lexer fields at loop entry (the Rust loop mutates them only on return);
`rest` and `index` are the loop-local cursor and byte count.  The loop is
given as structural recursion on a fuel bound; each `continue` consumes at
least two bytes of `rest`, so fuel `rest.length + 1` can never run out. -/
def verbLoop (l : Lexer) (verbatim : Str) : Nat → Str → Nat → LexRes (Token × Lexer)
  | 0, _, _ => .fuelOut
  | fuel + 1, rest, index =>
    match strFind openTagStr rest with
    | none => .ok l.lexTextToEnd
    | some startTag =>
      match byteDrop rest startTag with
      | none => .panicked
      | some rest1 =>
        match strFind closeTagStr rest1 with
        | none => .ok l.lexTextToEnd
        | some endTag =>
          match byteSlice rest1 2 endTag with
          | none => .panicked
          | some innerRaw =>
            match isCloserCheck (trim innerRaw) verbatim with
            | none => .panicked
            | some false =>
              match byteDrop rest1 (endTag + 2) with
              | none => .panicked
              | some rest2 => verbLoop l verbatim fuel rest2 (index + startTag + endTag + 2)
            | some true =>
              let index' := index + startTag
              match byteTake l.rest index' with
              | none => .panicked
              | some text =>
                if text = [] then
                  match byteSlice l.rest 2 endTag with
                  | none => .panicked
                  | some tag =>
                    match byteDrop l.rest (bytesLen tag + 4) with
                    | none => .panicked
                    | some r' =>
                      let byte' := l.byte + (bytesLen tag + 4)
                      .ok (.tag tag (l.byte, byte'), { l with rest := r', byte := byte' })
                else
                  match byteDrop l.rest index' with
                  | none => .panicked
                  | some r' =>
                    let byte' := l.byte + index'
                    .ok (.text text (l.byte, byte'), { l with rest := r', byte := byte' })

/-- `Lexer::lex_verbatim`.  It first re-trims the remembered identifier and
clears verbatim mode, then scans. -/
def Lexer.lexVerbatim (l : Lexer) (verbatim : Str) : LexRes (Token × Lexer) :=
  let vb := trim verbatim
  let l' := { l with verbatim := none }
  verbLoop l' vb (l'.rest.length + 1) l'.rest 0

/-- `<Lexer as Iterator>::next`.  `.ok none` = iteration finished,
`.ok (some (tok, l'))` = one token was produced. -/
def Lexer.next (l : Lexer) : LexRes (Option (Token × Lexer)) :=
  if l.rest = [] then .ok none
  else
    match l.verbatim with
    | some verbatim =>
      match l.lexVerbatim verbatim with
      | .fuelOut => .fuelOut
      | .panicked => .panicked
      | .ok tl => .ok (some tl)
    | none =>
      let p? := byteTake l.rest START_TAG_LEN
      if p? = some openVarStr then
        match l.lexTag .var with
        | none => .panicked
        | some tl => .ok (some tl)
      else if p? = some openTagStr then
        match l.lexTag .tag with
        | none => .panicked
        | some (tok, l') =>
          let l'' :=
            match tok with
            | .tag tagContent _ =>
              let v := trim tagContent
              if v = "verbatim".data ∨ "verbatim ".data.isPrefixOf v then
                { l' with verbatim := some v }
              else l'
            | _ => l'
          .ok (some (tok, l''))
      else if p? = some openCommentStr then
        match l.lexTag .comment with
        | none => .panicked
        | some tl => .ok (some tl)
      else
        match l.lexText with
        | none => .panicked
        | some tl => .ok (some tl)

/-- Result of running an iterator to exhaustion under a fuel bound. -/
inductive RunRes (α : Type) where
  | panicked
  | fuelOut
  | out (val : α)
deriving DecidableEq, Repr

/-- Collect all tokens of the structural lexer (fuel-bounded). -/
def lexerRun : Nat → Lexer → RunRes (List Token)
  | 0, _ => .fuelOut
  | fuel + 1, l =>
    match l.next with
    | .fuelOut => .fuelOut
    | .panicked => .panicked
    | .ok none => .out []
    | .ok (some (tok, l')) =>
      match lexerRun fuel l' with
      | .out ts => .out (tok :: ts)
      | r => r

/-- Lex a whole template.  The fuel `bytesLen t + 1` suffices because every
emitted token consumes at least one byte. -/
def lexTemplate (t : Str) : RunRes (List Token) :=
  lexerRun (bytesLen t + 1) (Lexer.new t)

/-! ## Expression lexer (`src/lex.rs`, `VariableLexer`)

The expression lexer scans the inner content of one `{{ ... }}` token.  Its
spans are `(start, end)` byte pairs relative to the string it was created
over (see `VariableLexer::new`).  `lex_text` contains the call
`self.next()` exactly as in the source (line 286 of `src/lex.rs`): it
invokes the lexer's own `Iterator::next` on the current state and discards
the returned item, keeping the state mutation. -/

/-- The string `"|"`. -/
def pipeStr : Str := "|".data

/-- The string `":"`. -/
def colonStr : Str := ":".data

/-- `enum VariableTokenType` from `src/lex.rs`. -/
inductive VariableTokenType where
  | text
  | var
  | filter
  | numeric
  | translatedText
deriving DecidableEq, Repr

/-- `struct VariableToken<'t>` from `src/lex.rs`. -/
structure VariableToken where
  tokenType : VariableTokenType
  content : Str
  at_ : Nat × Nat
deriving DecidableEq, Repr

/-- `enum Mode` from `src/lex.rs` (`Variable`/`Filter`/`Argument`). -/
inductive VMode where
  | var
  | filter
  | argument
deriving DecidableEq, Repr

/-- `enum VariableLexerError` from `src/lex.rs`.  Spans are `(start, end)`,
in the coordinates of the lexed string. -/
inductive VariableLexerError where
  | leadingUnderscore (at_ : Nat × Nat)
  | incompleteString (at_ : Nat × Nat)
  | incompleteTranslatedString (at_ : Nat × Nat)
  | missingTranslatedString (at_ : Nat × Nat)
  | invalidRemainder (at_ : Nat × Nat)
deriving DecidableEq, Repr

/-- `Result<VariableToken, VariableLexerError>`. -/
inductive VResult where
  | ok (token : VariableToken)
  | error (e : VariableLexerError)
deriving DecidableEq, Repr

/-- `struct VariableLexer<'t>` from `src/lex.rs`. -/
structure VariableLexer where
  rest : Str
  byte : Nat
  mode : VMode
deriving DecidableEq, Repr

/-- `VariableLexer::new`: trim the content, remembering the byte offset of
the start trim (`variable.len() - rest.len()` with `rest` the
start-trimmed string). -/
def VariableLexer.new (variable_ : Str) : VariableLexer :=
  let rest := trimStart variable_
  { rest := trimEnd rest
    byte := bytesLen variable_ - bytesLen rest
    mode := .var }

/-- `VariableLexer::lex_to_end`. -/
def VariableLexer.lexToEnd (s : VariableLexer) (tokenType : VariableTokenType) :
    VariableToken × VariableLexer :=
  let content := s.rest
  let byte' := s.byte + bytesLen content
  (⟨tokenType, content, (s.byte, byte')⟩, { s with byte := byte', rest := [] })

/-- `VariableLexer::lex_to_next`: content up to byte `next`, consuming also
the one-byte separator; the span `(start, byte - 1)` excludes it. -/
def VariableLexer.lexToNext (s : VariableLexer) (next : Nat)
    (tokenType : VariableTokenType) : Option (VariableToken × VariableLexer) :=
  match byteTake s.rest next, byteDrop s.rest (next + 1) with
  | some content, some rest' =>
    let byte' := s.byte + bytesLen content + 1
    some (⟨tokenType, content, (s.byte, byte' - 1)⟩, { s with byte := byte', rest := rest' })
  | _, _ => none

/-- `VariableLexer::lex_numeric`: greedily take ascii digits, `.` and `e`. -/
def VariableLexer.lexNumeric (s : VariableLexer) : Option (VariableToken × VariableLexer) :=
  let e := (strFindP (fun c => !(isAsciiDigit c || c = '.' || c = 'e')) s.rest).getD
    (bytesLen s.rest)
  match byteTake s.rest e, byteDrop s.rest e with
  | some content, some rest' =>
    some (⟨.numeric, content, (s.byte, s.byte + e)⟩, { s with byte := s.byte + e, rest := rest' })
  | _, _ => none

/-- `VariableLexer::lex_variable`: content up to the next `|` (or the end). -/
def VariableLexer.lexVariable (s : VariableLexer) : Option (VariableToken × VariableLexer) :=
  match strFind pipeStr s.rest with
  | none => some (s.lexToEnd .var)
  | some n => s.lexToNext n .var

/-- Result of `lex_text`/`lex_translated`: a `Result` plus the mutated lexer
state plus the remaining characters of the shared `Chars` iterator. -/
inductive LtRes where
  | fuelOut
  | panicked
  | res (r : VResult) (s : VariableLexer) (chars : Str)
deriving DecidableEq, Repr

/-- Result of `<VariableLexer as Iterator>::next`. -/
inductive VLexStep where
  | fuelOut
  | panicked
  | done
  | item (r : VResult) (s : VariableLexer)
deriving DecidableEq, Repr

/-- The trailing-remainder validation at the end of `Mode::Argument` in
`<VariableLexer as Iterator>::next`: everything between the argument and
the next `|` (or the end) must be whitespace, else `InvalidRemainder`. -/
def remainderCheck (s : VariableLexer) (token : VResult) : VLexStep :=
  match strFind pipeStr s.rest with
  | some n =>
    match byteTake s.rest n, byteDrop s.rest (n + 1) with
    | some remainder, some rest' =>
      if trim remainder = [] then
        .item token { s with rest := rest', byte := s.byte + n + 1 }
      else
        .item (.error (.invalidRemainder (s.byte, s.byte + bytesLen remainder)))
          { s with rest := [] }
    | _, _ => .panicked
  | none =>
    if trim s.rest = [] then .item token s
    else
      .item (.error (.invalidRemainder (s.byte, s.byte + bytesLen s.rest)))
        { s with rest := [] }

/-- `VariableLexer::lex_text`: scan `chars` for the closing quote `endc`,
counting scanned characters in `count` (as the source does — a character
count, later used as a byte index).  On `\` the source increments the count
once more and calls `self.next()`, discarding the returned item but keeping
the state mutation; the escaped character is *not* consumed from `chars`.
The reentrant `self.next()` is passed in as `next` (the recursive knot is
tied, fuel-indexed, in `varNext` below). -/
def lexTextGo (next : VariableLexer → VLexStep) :
    VariableLexer → Str → Char → Nat → LtRes
  | s, [], _, count =>
    .res (.error (.incompleteString (s.byte, s.byte + count))) { s with rest := [] } []
  | s, c :: chars, endc, count =>
    let count := count + 1
    if c = '\\' then
      let count := count + 1
      match next s with
      | .fuelOut => .fuelOut
      | .panicked => .panicked
      | .done => lexTextGo next s chars endc count
      | .item _ s' => lexTextGo next s' chars endc count
    else if c = endc then
      match byteSlice s.rest 1 (count - 1), byteDrop s.rest count with
      | some content, some rest' =>
        let byte' := s.byte + bytesLen content + 2
        .res (.ok ⟨.text, content, (s.byte, byte')⟩) { s with byte := byte', rest := rest' } chars
      | _, _ => .panicked
    else lexTextGo next s chars endc count

/-- `VariableLexer::lex_translated`: expect a quoted string then `)`.
`chars` holds the characters after the already-consumed `_(`. -/
def lexTranslatedGo (next : VariableLexer → VLexStep) (s : VariableLexer)
    (chars : Str) : LtRes :=
  let start := s.byte
  match byteDrop s.rest 2 with
  | none => .panicked
  | some rest2 =>
    let s := { s with byte := s.byte + 2, rest := rest2 }
    match chars with
    | [] => .res (.error (.missingTranslatedString (start, s.byte))) { s with rest := [] } []
    | c :: chars' =>
      if c = '\'' ∨ c = '"' then
        match lexTextGo next s chars' c 1 with
        | .fuelOut => .fuelOut
        | .panicked => .panicked
        | .res (.error e) s' chars'' => .res (.error e) s' chars''
        | .res (.ok token) s' chars'' =>
          match chars'' with
          | ')' :: chars3 =>
            match byteDrop s'.rest 1 with
            | none => .panicked
            | some r1 =>
              let s'' := { s' with byte := s'.byte + 1, rest := r1 }
              .res (.ok ⟨.translatedText, token.content, (start, s''.byte)⟩) s'' chars3
          | _ =>
            .res (.error (.incompleteTranslatedString (start, s'.byte)))
              { s' with rest := [] } chars''
      else
        .res (.error (.missingTranslatedString (start, s.byte + bytesLen s.rest)))
          { s with rest := [] } chars

/-- The body of `<VariableLexer as Iterator>::next`, with the reentrant
`self.next()` of `lex_text` abstracted as `next`. -/
def varNextGo (next : VariableLexer → VLexStep) (s : VariableLexer) : VLexStep :=
  if s.rest = [] then .done
  else
    match s.mode with
    | .var =>
      let s := { s with mode := .filter }
      match s.lexVariable with
      | none => .panicked
      | some (tok, s') => .item (.ok tok) s'
    | .filter =>
      match strFind pipeStr s.rest, strFind colonStr s.rest with
      | none, none =>
        let (tok, s') := s.lexToEnd .filter
        .item (.ok tok) s'
      | none, some n =>
        match VariableLexer.lexToNext { s with mode := .argument } n .filter with
        | none => .panicked
        | some (tok, s') => .item (.ok tok) s'
      | some f, some a =>
        if a < f then
          match VariableLexer.lexToNext { s with mode := .argument } a .filter with
          | none => .panicked
          | some (tok, s') => .item (.ok tok) s'
        else
          match s.lexToNext f .filter with
          | none => .panicked
          | some (tok, s') => .item (.ok tok) s'
      | some f, none =>
        match s.lexToNext f .filter with
        | none => .panicked
        | some (tok, s') => .item (.ok tok) s'
    | .argument =>
      let s := { s with mode := .filter }
      match s.rest with
      | [] => .panicked
      | c :: restTail =>
        if c = '_' then
          match restTail with
          | '(' :: chars2 =>
            match lexTranslatedGo next s chars2 with
            | .fuelOut => .fuelOut
            | .panicked => .panicked
            | .res token s' _ => remainderCheck s' token
          | _ =>
            let e := (strFindP rustIsWhitespace s.rest).getD (bytesLen s.rest)
            .item (.error (.leadingUnderscore (s.byte, s.byte + e)))
              { s with byte := s.byte + bytesLen s.rest, rest := [] }
        else if c = '\'' ∨ c = '"' then
          match lexTextGo next s restTail c 1 with
          | .fuelOut => .fuelOut
          | .panicked => .panicked
          | .res token s' _ => remainderCheck s' token
        else if isAsciiDigit c then
          match s.lexNumeric with
          | none => .panicked
          | some (tok, s') => remainderCheck s' (.ok tok)
        else
          match s.lexVariable with
          | none => .panicked
          | some (tok, s') => .item (.ok tok) s'

/-- `<VariableLexer as Iterator>::next`, fuel-indexed: each reentrant
`self.next()` inside `lex_text` consumes one unit of fuel. -/
def varNext : Nat → VariableLexer → VLexStep
  | 0, _ => .fuelOut
  | fuel + 1, s => varNextGo (varNext fuel) s

/-- Collect all items of the expression lexer (fuel-bounded). -/
def varRun : Nat → Nat → VariableLexer → RunRes (List VResult)
  | 0, _, _ => .fuelOut
  | outer + 1, fuel, s =>
    match varNext fuel s with
    | .fuelOut => .fuelOut
    | .panicked => .panicked
    | .done => .out []
    | .item r s' =>
      match varRun outer fuel s' with
      | .out rs => .out (r :: rs)
      | other => other

/-- Lex one variable tag's content to exhaustion with canonical fuel. -/
def lexVariableContent (variable_ : Str) : RunRes (List VResult) :=
  let s := VariableLexer.new variable_
  varRun (s.rest.length + 1) (bytesLen variable_ + 2) s

/-! ## Glue between the lexer and the parser

`src/parse.rs` imports `lex_variable`, `TokenType`, `Argument` and
`ArgumentType` from `crate::lex`, but the `src/lex.rs` present in the
repository predates that interface (it exports `VariableLexer` and a flat
`VariableToken` stream instead, and no `lex_variable`).  The missing
interface is modelled here from the spec (§4.2 input contract: "the trimmed
inner content of one `Variable` token, plus its absolute base offset";
§4.3: "for each subsequent (filter-name, optional-argument) pair"), with
span conventions fixed by the tests in `src/parse.rs` (spans there are
`(start, len)` pairs — `miette::SourceSpan` — e.g. `Variable { at: (3, 3) }`
for `foo` in `"{{ foo }}"`). -/

/-- Convert a lexer `(start, end)` span to a parser `(start, len)` span.
Modelled from the spec: the two lexer generations use different span
encodings; `src/parse.rs` (`Text::content`, tests) fixes `(start, len)`. -/
def toSpanLen (a : Nat × Nat) : Nat × Nat := (a.1, a.2 - a.1)

/-- `ArgumentType` from the newer lexer interface (re-exported to
`src/parse.rs` as `ArgumentTokenType`).  Modelled from the spec (§3
"Argument ... `Variable`, `Text`, `TranslatedText`" plus `Numeric`). -/
inductive ArgumentTokenType where
  | var
  | text
  | numeric
  | translatedText
deriving DecidableEq, Repr

/-- `Argument` from the newer lexer interface (used in `src/parse.rs` as
`ArgumentToken`): span `(start, len)` including any delimiters, plus the
argument kind.  Modelled from the spec. -/
structure ArgumentToken where
  at_ : Nat × Nat
  argumentType : ArgumentTokenType
deriving DecidableEq, Repr

/-- `ArgumentToken::content_at()`: the span of the payload without
delimiters (string literals lose their two quotes; translated strings lose
`_('` and `')`).  Modelled from the spec, with the offsets fixed by the
`src/parse.rs` tests (`'baz'` at `(11, 5)` has content at `(12, 3)`;
`_('baz')` at `(11, 8)` has content at `(14, 3)`). -/
def ArgumentToken.contentAt (a : ArgumentToken) : Nat × Nat :=
  match a.argumentType with
  | .text => (a.at_.1 + 1, a.at_.2 - 2)
  | .translatedText => (a.at_.1 + 3, a.at_.2 - 5)
  | _ => a.at_

/-- `FilterToken` from the newer lexer interface: a filter name span plus
its optional argument.  Modelled from the spec (§4.3). -/
structure FilterToken where
  at_ : Nat × Nat
  argument : Option ArgumentToken
deriving DecidableEq, Repr

/-- One element of the filter stream handed to the parser. -/
inductive FilterItem where
  | ok (f : FilterToken)
  | error (e : VariableLexerError)
deriving DecidableEq, Repr

/-- Reinterpret a flat expression-lexer token in argument position as an
`ArgumentToken`.  Modelled from the spec (§4.2 argument-mode dispatch). -/
def argTokenOf (t : VariableToken) : ArgumentToken :=
  { at_ := toSpanLen t.at_
    argumentType :=
      match t.tokenType with
      | .text => .text
      | .translatedText => .translatedText
      | .numeric => .numeric
      | _ => .var }

/-- Pair each filter-name token with the argument token that follows it, if
any.  Modelled from the spec (§4.3 "(filter-name, optional-argument)
pair"); in the flat stream an argument token is any non-`Filter` token
following a filter name.  The accumulator holds the span of a filter name
still waiting for its argument. -/
def pairFiltersAux : Option (Nat × Nat) → List VResult → List FilterItem
  | none, [] => []
  | some fat, [] => [.ok ⟨fat, none⟩]
  | none, .error e :: rest => .error e :: pairFiltersAux none rest
  | none, .ok f :: rest => pairFiltersAux (some (toSpanLen f.at_)) rest
  | some fat, .error e :: rest => .ok ⟨fat, none⟩ :: .error e :: pairFiltersAux none rest
  | some fat, .ok t :: rest =>
    if t.tokenType = .filter then .ok ⟨fat, none⟩ :: pairFiltersAux (some (toSpanLen t.at_)) rest
    else .ok ⟨fat, some (argTokenOf t)⟩ :: pairFiltersAux none rest

/-- Pair each filter-name token with its optional argument (see
`pairFiltersAux`; the accumulator holds a filter name waiting for its
argument). -/
def pairFilters (items : List VResult) : List FilterItem :=
  pairFiltersAux none items

/-- `VariableLexer::new` with an absolute base offset: the `byte` counter
starts at `start` plus the length of the trimmed leading whitespace.
Modelled from the spec (§4.2: spans "always normalized to absolute buffer
coordinates by adding the enclosing Variable token's base offset"). -/
def VariableLexer.newAt (variable_ : Str) (start : Nat) : VariableLexer :=
  let rest := trimStart variable_
  { rest := trimEnd rest
    byte := start + (bytesLen variable_ - bytesLen rest)
    mode := .var }

/-- Result of `lex_variable`. -/
inductive LexVarRes where
  | fuelOut
  | panicked
  | error (e : VariableLexerError)
  | empty
  | ok (variableToken : VariableToken) (filters : List FilterItem)
deriving DecidableEq, Repr

/-- `lex_variable(variable, start)`: run the expression lexer over the
variable content with absolute spans and split the stream into the leading
variable token and the filter stream.  Modelled from the spec (§4.2/§4.3);
the underlying scanning is the `VariableLexer` of `src/lex.rs`. -/
def lexVariableAt (variable_ : Str) (start : Nat) : LexVarRes :=
  let s := VariableLexer.newAt variable_ start
  match varRun (s.rest.length + 1) (bytesLen variable_ + 2) s with
  | .fuelOut => .fuelOut
  | .panicked => .panicked
  | .out [] => .empty
  | .out (.error e :: _) => .error e
  | .out (.ok v :: rest) => .ok v (pairFilters rest)

/-! ## Parser (`src/parse.rs`)

Spans at this layer are `(start, len)` pairs (`miette::SourceSpan`). -/

/-- `enum Tag` from `src/parse.rs`: deliberately uninhabited. -/
inductive Tag : Type
deriving DecidableEq, Repr

/-- `struct Variable` from `src/parse.rs`. -/
structure Variable where
  at_ : Nat × Nat
deriving DecidableEq, Repr

/-- `Variable::content`: `&template[start..start + len]`. -/
def Variable.content (v : Variable) (template : Str) : Option Str :=
  byteSlice template v.at_.1 (v.at_.1 + v.at_.2)

/-- `struct Text` from `src/parse.rs`. -/
structure Text where
  at_ : Nat × Nat
deriving DecidableEq, Repr

/-- `Text::content`: `&template[start..start + len]`. -/
def Text.content (t : Text) (template : Str) : Option Str :=
  byteSlice template t.at_.1 (t.at_.1 + t.at_.2)

/-- `enum VariableLexerError` span conversion when wrapped into a
`ParseError` (`(start, end)` → `(start, len)`).  Modelled from the spec
(§6: all reported spans address the original buffer). -/
def VariableLexerError.convertSpans : VariableLexerError → VariableLexerError
  | .leadingUnderscore a => .leadingUnderscore (toSpanLen a)
  | .incompleteString a => .incompleteString (toSpanLen a)
  | .incompleteTranslatedString a => .incompleteTranslatedString (toSpanLen a)
  | .missingTranslatedString a => .missingTranslatedString (toSpanLen a)
  | .invalidRemainder a => .invalidRemainder (toSpanLen a)

/-- `enum ParseError` from `src/parse.rs`. -/
inductive ParseError where
  | emptyVariable (at_ : Nat × Nat)
  | missingArgument (at_ : Nat × Nat)
  | lexerError (e : VariableLexerError)
  | invalidNumber (at_ : Nat × Nat)
  | unexpectedArgument (at_ : Nat × Nat)
deriving DecidableEq, Repr

/-- The span carried by a `ParseError`. -/
def ParseError.at_ : ParseError → Nat × Nat
  | .emptyVariable a => a
  | .missingArgument a => a
  | .lexerError (.leadingUnderscore a) => a
  | .lexerError (.incompleteString a) => a
  | .lexerError (.incompleteTranslatedString a) => a
  | .lexerError (.missingTranslatedString a) => a
  | .lexerError (.invalidRemainder a) => a
  | .invalidNumber a => a
  | .unexpectedArgument a => a

/-- `enum ArgumentType` from `src/parse.rs` (`Int` is `num_bigint::BigInt`,
modelled as `Int`; `Float` is `f64`, modelled as the exact rational value
of the literal). -/
inductive ArgumentType where
  | var (v : Variable)
  | text (t : Text)
  | translatedText (t : Text)
  | int (n : Int)
  | float (q : Rat)
deriving DecidableEq, Repr

/-- `struct Argument` from `src/parse.rs`. -/
structure Argument where
  at_ : Nat × Nat
  argumentType : ArgumentType
deriving DecidableEq, Repr

/-- `enum FilterType` from `src/parse.rs`. -/
inductive FilterType where
  | default (a : Argument)
  | external (a : Option Argument)
  | lower
deriving DecidableEq, Repr

/-- `enum TokenTree` from `src/parse.rs`.  The `Filter` variant inlines
`struct Filter` (`at`, `left`, `filter`), which is mutually recursive with
`TokenTree` in the source. -/
inductive TokenTree where
  | text (t : Text)
  | translatedText (t : Text)
  | tag (t : Tag)
  | var (v : Variable)
  | filter (at_ : Nat × Nat) (left : TokenTree) (filterType : FilterType)
deriving DecidableEq, Repr

/-! ### Numeric literal parsing (`ArgumentToken::parse`) -/

/-- The numeric value of a string of ascii digits (`none` when empty or
when any character is not an ascii digit). -/
def digitsToNat (s : Str) : Option Nat :=
  if s = [] then none
  else if s.all isAsciiDigit then
    some (s.foldl (fun acc c => acc * 10 + (c.toNat - '0'.toNat)) 0)
  else none

/-- `<BigInt as FromStr>::from_str`: an optional sign followed by one or
more ascii digits. -/
def intParse (s : Str) : Option Int :=
  match s with
  | '+' :: rest => (digitsToNat rest).map Int.ofNat
  | '-' :: rest => (digitsToNat rest).map (fun n => -(n : Int))
  | _ => (digitsToNat s).map Int.ofNat

/-- Split a string at the first `e` or `E`. -/
def splitExp : Str → Option (Str × Str)
  | [] => none
  | c :: s =>
    if c = 'e' ∨ c = 'E' then some ([], s)
    else (splitExp s).map (fun p => (c :: p.1, p.2))

/-- The numeric value of a digit string (no validity check; the callers
validate first). -/
def natOfDigits (s : Str) : Nat :=
  s.foldl (fun acc c => acc * 10 + (c.toNat - '0'.toNat)) 0

/-- Parse a significand `D+ ['.' D*] | '.' D+` into its digit value and its
number of fractional digits (`none` when malformed). -/
def mantissaParts (s : Str) : Option (Nat × Nat) :=
  let intPart := s.takeWhile isAsciiDigit
  let rest := s.dropWhile isAsciiDigit
  match rest with
  | [] => if intPart = [] then none else some (natOfDigits intPart, 0)
  | '.' :: frac =>
    if frac.all isAsciiDigit ∧ ¬(intPart = [] ∧ frac = []) then
      some (natOfDigits intPart * 10 ^ frac.length + natOfDigits frac, frac.length)
    else none
  | _ => none

/-- The exact rational value `sign * digits * 10 ^ (exp - fracLen)`. -/
def decimalValue (sign : Int) (digits : Nat) (fracLen : Nat) (exp : Int) : Rat :=
  if fracLen ≤ exp then
    mkRat (sign * Int.ofNat (digits * 10 ^ (exp - fracLen).toNat)) 1
  else
    mkRat (sign * Int.ofNat digits) (10 ^ ((fracLen : Int) - exp).toNat)

/-- `<f64 as FromStr>::from_str`, restricted to the finite-number grammar
`[sign] significand [(e|E) [sign] digits]` and modelled by the exact
rational value of the literal (`inf`/`nan` spellings are unreachable here:
the numeric lexer only emits strings over ascii digits, `.` and `e`). -/
def floatParse (s : Str) : Option Rat :=
  let signed : Int × Str :=
    match s with
    | '+' :: r => (1, r)
    | '-' :: r => (-1, r)
    | _ => (1, s)
  match splitExp signed.2 with
  | none =>
    (mantissaParts signed.2).map (fun p => decimalValue signed.1 p.1 p.2 0)
  | some (m, e) =>
    let esigned : Int × Str :=
      match e with
      | '+' :: r => (1, r)
      | '-' :: r => (-1, r)
      | _ => (1, e)
    match digitsToNat esigned.2 with
    | none => none
    | some ex =>
      (mantissaParts m).map (fun p => decimalValue signed.1 p.1 p.2 (esigned.1 * (ex : Int)))

/-- Result of converting one `ArgumentToken` to a typed `Argument`. -/
inductive ArgParseRes where
  | panicked
  | error (e : ParseError)
  | ok (a : Argument)
deriving DecidableEq, Repr

/-- `ArgumentToken::parse` (`src/parse.rs`): map the argument token to a
typed `Argument`; numeric content tries `BigInt` first, then `f64`, else
`InvalidNumber` at the token's span. -/
def ArgumentToken.parseArg (a : ArgumentToken) (template : Str) : ArgParseRes :=
  match a.argumentType with
  | .var => .ok ⟨a.at_, .var ⟨a.at_⟩⟩
  | .text => .ok ⟨a.at_, .text ⟨a.contentAt⟩⟩
  | .translatedText => .ok ⟨a.at_, .translatedText ⟨a.contentAt⟩⟩
  | .numeric =>
    match byteSlice template a.at_.1 (a.at_.1 + a.at_.2) with
    | none => .panicked
    | some content =>
      match intParse content with
      | some n => .ok ⟨a.at_, .int n⟩
      | none =>
        match floatParse content with
        | some q => .ok ⟨a.at_, .float q⟩
        | none => .error (.invalidNumber a.at_)

/-- Result of building one filter node. -/
inductive FiltRes where
  | panicked
  | error (e : ParseError)
  | ok (node : TokenTree)
deriving DecidableEq, Repr

/-- `Filter::new` (`src/parse.rs`): dispatch on the filter-name slice of
the template; `default` requires an argument, `lower` forbids one, any
other name is `External`.  The returned node is the `TokenTree::Filter`
the caller wraps the result in. -/
def filterNew (template : Str) (at_ : Nat × Nat) (left : TokenTree)
    (right : Option Argument) : FiltRes :=
  match byteSlice template at_.1 (at_.1 + at_.2) with
  | none => .panicked
  | some name =>
    if name = "default".data then
      match right with
      | some r => .ok (.filter at_ left (.default r))
      | none => .error (.missingArgument at_)
    else if name = "lower".data then
      match right with
      | some r => .error (.unexpectedArgument r.at_)
      | none => .ok (.filter at_ left .lower)
    else .ok (.filter at_ left (.external right))

/-- Result of parsing one variable tag. -/
inductive NodeRes where
  | fuelOut
  | panicked
  | error (e : ParseError)
  | ok (node : TokenTree)
deriving DecidableEq, Repr

/-- The filter-chain fold inside `Parser::parse_variable`: each filter
token wraps the accumulated tree as its `left` child. -/
def parseFilters (template : Str) : TokenTree → List FilterItem → NodeRes
  | node, [] => .ok node
  | _, .error e :: _ => .error (.lexerError e.convertSpans)
  | node, .ok ft :: rest =>
    match ft.argument with
    | none =>
      match filterNew template ft.at_ node none with
      | .panicked => .panicked
      | .error e => .error e
      | .ok node' => parseFilters template node' rest
    | some a =>
      match a.parseArg template with
      | .panicked => .panicked
      | .error e => .error e
      | .ok arg =>
        match filterNew template ft.at_ node (some arg) with
        | .panicked => .panicked
        | .error e => .error e
        | .ok node' => parseFilters template node' rest

/-- `Parser::parse_variable` (`src/parse.rs`): lex the variable content at
its absolute offset; no tokens is `EmptyVariable` over the whole tag; the
first token seeds a `Variable` node; then fold the filter stream. -/
def parseVariable (template : Str) (variable_ : Str) (at_ : Nat × Nat) : NodeRes :=
  match lexVariableAt variable_ (at_.1 + START_TAG_LEN) with
  | .fuelOut => .fuelOut
  | .panicked => .panicked
  | .error e => .error (.lexerError e.convertSpans)
  | .empty => .error (.emptyVariable at_)
  | .ok vtok filters => parseFilters template (.var ⟨toSpanLen vtok.at_⟩) filters

/-- Result of `Parser::parse`. -/
inductive ParseRes where
  | fuelOut
  | panicked
  | error (e : ParseError)
  | ok (nodes : List TokenTree)
deriving DecidableEq, Repr

/-- The loop of `Parser::parse`: one token at a time; `Text` yields a node,
`Comment` is skipped, `Variable` goes through `parse_variable`, and `Tag`
reaches `Parser::parse_tag`, which is `todo!()` — a panic. -/
def parseLoop (template : Str) : Nat → Lexer → ParseRes
  | 0, _ => .fuelOut
  | fuel + 1, lx =>
    match lx.next with
    | .fuelOut => .fuelOut
    | .panicked => .panicked
    | .ok none => .ok []
    | .ok (some (tok, lx')) =>
      match tok with
      | .comment _ _ => parseLoop template fuel lx'
      | .tag _ _ => .panicked
      | .text _ a =>
        match parseLoop template fuel lx' with
        | .ok nodes => .ok (.text ⟨toSpanLen a⟩ :: nodes)
        | r => r
      | .var content a =>
        match parseVariable template content (toSpanLen a) with
        | .fuelOut => .fuelOut
        | .panicked => .panicked
        | .error e => .error e
        | .ok node =>
          match parseLoop template fuel lx' with
          | .ok nodes => .ok (node :: nodes)
          | r => r

/-- `Parser::parse` over a whole template. -/
def parseTemplate (t : Str) : ParseRes :=
  parseLoop t (bytesLen t + 1) (Lexer.new t)

/-- The span of the substring a structural token logically represents:
`Text` tokens cover their span exactly; `Variable`/`Tag`/`Comment` spans
include the two-byte delimiters on each side. -/
def Token.contentSpan : Token → Nat × Nat
  | .text _ a => a
  | .var _ a => (a.1 + 2, a.2 - 2)
  | .tag _ a => (a.1 + 2, a.2 - 2)
  | .comment _ a => (a.1 + 2, a.2 - 2)

/-- Slicing the buffer at a token's content span recovers its content. -/
def TokenContentOK (t : Str) (tok : Token) : Prop :=
  byteSlice t tok.contentSpan.1 tok.contentSpan.2 = some tok.content

/-- The span of the substring an expression token logically represents:
string literals exclude the surrounding quotes; translated strings exclude
`_('` and `')`. -/
def VariableToken.contentSpan (tok : VariableToken) : Nat × Nat :=
  match tok.tokenType with
  | .text => (tok.at_.1 + 1, tok.at_.2 - 1)
  | .translatedText => (tok.at_.1 + 3, tok.at_.2 - 2)
  | _ => tok.at_

/-- Slicing the buffer at an expression token's content span recovers its
content. -/
def VTokenContentOK (t : Str) (tok : VariableToken) : Prop :=
  byteSlice t tok.contentSpan.1 tok.contentSpan.2 = some tok.content

/-- Invariant of the expression lexer relative to the buffer `t`: `rest`
is the text of `t` starting at byte `byte`, up to some tail. -/
def VInv (t : Str) (s : VariableLexer) : Prop :=
  ∃ tail, byteDrop t s.byte = some (s.rest ++ tail)

/-- One successful lexer step consumes a non-empty prefix `seg` of `rest`,
advances `byte` by its byte length and stamps the token with exactly that
span. -/
def Consumes (l : Lexer) (tok : Token) (l' : Lexer) : Prop :=
  ∃ seg, l.rest = seg ++ l'.rest ∧ seg ≠ [] ∧
    l'.byte = l.byte + bytesLen seg ∧ tok.at_ = (l.byte, l'.byte) ∧
    ∃ a b, tok.contentSpan = (l.byte + a, l.byte + b) ∧
      byteSlice l.rest a b = some tok.content

/-- Spans `(aᵢ, bᵢ)` of a token list chain contiguously from `a` to `b`,
every span non-empty. -/
def spanChain : Nat → List Token → Nat → Bool
  | a, [], b => a == b
  | a, tok :: ts, b =>
    tok.at_.1 == a && decide (a < tok.at_.2) && spanChain tok.at_.2 ts b

/-- Concatenation of the slices of `t` at the tokens' spans (`none` when
some span does not slice cleanly). -/
def sliceConcat (t : Str) : List Token → Option Str
  | [] => some []
  | tok :: ts =>
    match byteSlice t tok.at_.1 tok.at_.2, sliceConcat t ts with
    | some seg, some rest => some (seg ++ rest)
    | _, _ => none

/-- One parsed node corresponds to one non-comment structural token: a
`Text` token yields the `Text` node at its `(start, len)` span and a
`Variable` token yields whatever `Parser::parse_variable` built for it;
`Tag` tokens never yield nodes (`parse_tag` panics) and `Comment` tokens
are skipped. -/
def nodeOfTok (template : Str) (tok : Token) (node : TokenTree) : Bool :=
  match tok with
  | .text _ a => node == .text ⟨toSpanLen a⟩
  | .var c a => parseVariable template c (toSpanLen a) == .ok node
  | _ => false

/-- `nodes` lists, in document order, exactly one node per non-comment
token of `ts`. -/
def nodesMatch (template : Str) : List Token → List TokenTree → Bool
  | [], [] => true
  | .comment _ _ :: ts, ns => nodesMatch template ts ns
  | tok :: ts, n :: ns => nodeOfTok template tok n && nodesMatch template ts ns
  | _, _ => false

/-- The filter type the parser assigns to an argument-less filter name
that is not `default`: `lower` becomes `Lower`, anything else `External`
with no argument.  (Characterization used by the C4 chain-shape claim.) -/
def specFilterType (template : Str) (at_ : Nat × Nat) : FilterType :=
  if byteSlice template at_.1 (at_.1 + at_.2) = some "lower".data then .lower
  else .external none

/-- The left-nested filter chain the spec describes (first filter
innermost): each filter wraps the accumulated tree as its `left` child. -/
def specFilterChain (template : Str) : TokenTree → List FilterToken → TokenTree
  | node, [] => node
  | node, ft :: rest =>
    specFilterChain template (.filter ft.at_ node (specFilterType template ft.at_)) rest

/-! ## Basic lemmas about the byte-level primitives -/

theorem charBytes_pos (c : Char) : 0 < charBytes c := by
  have := Char.utf8Size_pos c
  simpa [charBytes] using this

theorem bytesLen_append (s t : Str) : bytesLen (s ++ t) = bytesLen s + bytesLen t := by
  induction s with
  | nil => simp [bytesLen]
  | cons c s ih => simp [bytesLen, ih]; omega

theorem bytesLen_eq_zero {s : Str} (h : bytesLen s = 0) : s = [] := by
  cases s with
  | nil => rfl
  | cons c s => exfalso; have := charBytes_pos c; simp [bytesLen] at h; omega

theorem byteDrop_append (s t : Str) : byteDrop (s ++ t) (bytesLen s) = some t := by
  induction s with
  | nil => simp [byteDrop, bytesLen]
  | cons c s ih =>
    have hc := charBytes_pos c
    cases hn : charBytes c + bytesLen s with
    | zero => omega
    | succ m =>
      simp only [List.cons_append, bytesLen, hn, byteDrop]
      rw [if_pos (by omega)]
      have : m + 1 - charBytes c = bytesLen s := by omega
      rw [this]; exact ih

theorem byteTake_append (s t : Str) : byteTake (s ++ t) (bytesLen s) = some s := by
  induction s with
  | nil => simp [byteTake, bytesLen]
  | cons c s ih =>
    have hc := charBytes_pos c
    cases hn : charBytes c + bytesLen s with
    | zero => omega
    | succ m =>
      simp only [List.cons_append, bytesLen, hn, byteTake]
      rw [if_pos (by omega)]
      have : m + 1 - charBytes c = bytesLen s := by omega
      rw [this, ih, Option.map_some']

theorem byteDrop_cons (c : Char) (s : Str) {n : Nat} (hn : 0 < n) :
    byteDrop (c :: s) n =
      if charBytes c ≤ n then byteDrop s (n - charBytes c) else none := by
  cases n with
  | zero => omega
  | succ m => rfl

theorem byteTake_cons (c : Char) (s : Str) {n : Nat} (hn : 0 < n) :
    byteTake (c :: s) n =
      if charBytes c ≤ n then (byteTake s (n - charBytes c)).map (c :: ·) else none := by
  cases n with
  | zero => omega
  | succ m => rfl

theorem byteDrop_split {s r : Str} {n : Nat} (h : byteDrop s n = some r) :
    ∃ pre, s = pre ++ r ∧ bytesLen pre = n := by
  induction s generalizing n with
  | nil =>
    cases n with
    | zero =>
      obtain rfl : ([] : Str) = r := Option.some.inj h
      exact ⟨[], rfl, rfl⟩
    | succ m => exact absurd h (by simp [byteDrop])
  | cons c s ih =>
    cases n with
    | zero =>
      obtain rfl : c :: s = r := Option.some.inj h
      exact ⟨[], rfl, rfl⟩
    | succ m =>
      rw [byteDrop_cons c s (Nat.succ_pos m)] at h
      by_cases hc : charBytes c ≤ m + 1
      · rw [if_pos hc] at h
        obtain ⟨pre, hpre, hlen⟩ := ih h
        exact ⟨c :: pre, by simp [hpre], by simp [bytesLen, hlen]; omega⟩
      · rw [if_neg hc] at h; exact absurd h (by simp)

theorem byteTake_split {s r : Str} {n : Nat} (h : byteTake s n = some r) :
    ∃ suf, s = r ++ suf ∧ bytesLen r = n := by
  induction s generalizing n r with
  | nil =>
    cases n with
    | zero =>
      obtain rfl : ([] : Str) = r := Option.some.inj h
      exact ⟨[], rfl, rfl⟩
    | succ m => exact absurd h (by simp [byteTake])
  | cons c s ih =>
    cases n with
    | zero =>
      obtain rfl : ([] : Str) = r := Option.some.inj h
      exact ⟨c :: s, rfl, rfl⟩
    | succ m =>
      rw [byteTake_cons c s (Nat.succ_pos m)] at h
      by_cases hc : charBytes c ≤ m + 1
      · rw [if_pos hc] at h
        cases hr : byteTake s (m + 1 - charBytes c) with
        | none => rw [hr] at h; simp at h
        | some r' =>
          rw [hr] at h; simp only [Option.map_some', Option.some.injEq] at h
          obtain ⟨suf, hsuf, hlen⟩ := ih hr
          refine ⟨suf, by simp [← h, hsuf], ?_⟩
          simp [← h, bytesLen, hlen]; omega
      · rw [if_neg hc] at h; exact absurd h (by simp)

theorem byteDrop_bytesLen {s r : Str} {n : Nat} (h : byteDrop s n = some r) :
    n + bytesLen r = bytesLen s := by
  obtain ⟨pre, hpre, hlen⟩ := byteDrop_split h
  subst hpre; rw [bytesLen_append, hlen]

theorem byteTake_bytesLen {s r : Str} {n : Nat} (h : byteTake s n = some r) :
    bytesLen r = n :=
  (byteTake_split h).choose_spec.2

theorem byteDrop_length_le {s r : Str} {n : Nat} (h : byteDrop s n = some r) :
    r.length ≤ s.length := by
  obtain ⟨pre, hpre, _⟩ := byteDrop_split h
  subst hpre; simp

theorem byteDrop_length_lt {s r : Str} {n : Nat} (hn : 0 < n)
    (h : byteDrop s n = some r) : r.length < s.length := by
  obtain ⟨pre, hpre, hlen⟩ := byteDrop_split h
  have : pre ≠ [] := by
    intro hp; subst hp; simp [bytesLen] at hlen; omega
  subst hpre
  cases pre with
  | nil => exact absurd rfl this
  | cons c p => simp [List.length_append]; omega

theorem byteDrop_byteDrop {s r : Str} {a : Nat} (h : byteDrop s a = some r) (b : Nat) :
    byteDrop s (a + b) = byteDrop r b := by
  obtain ⟨pre, rfl, hlen⟩ := byteDrop_split h
  subst hlen
  clear h
  induction pre with
  | nil => simp [bytesLen]
  | cons c p ih =>
    have hc := charBytes_pos c
    rw [show bytesLen (c :: p) = charBytes c + bytesLen p from rfl, List.cons_append]
    rw [byteDrop_cons c (p ++ r) (n := charBytes c + bytesLen p + b) (by omega),
      if_pos (by omega)]
    have harith : charBytes c + bytesLen p + b - charBytes c = bytesLen p + b := by omega
    rw [harith, ih]

/-! ## Content spans: every token re-derives its content by slicing

Claim C3 machinery: each token's recorded span, adjusted by its delimiter
convention, slices the original buffer back to exactly the content the
token carries. -/

theorem byteTake_append_left {s c : Str} {k : Nat} (h : byteTake s k = some c)
    (u : Str) : byteTake (s ++ u) k = some c := by
  obtain ⟨suf, rfl, rfl⟩ := byteTake_split h
  rw [List.append_assoc]
  exact byteTake_append c (suf ++ u)

theorem byteDrop_append_right {s r : Str} {k : Nat} (h : byteDrop s k = some r)
    (u : Str) : byteDrop (s ++ u) k = some (r ++ u) := by
  obtain ⟨pre, rfl, rfl⟩ := byteDrop_split h
  rw [List.append_assoc]
  exact byteDrop_append pre (r ++ u)

theorem byteSlice_append_left {s c : Str} {a b : Nat} (h : byteSlice s a b = some c)
    (u : Str) : byteSlice (s ++ u) a b = some c := by
  unfold byteSlice at h ⊢
  by_cases hab : a ≤ b
  · rw [if_pos hab] at h ⊢
    cases hd : byteDrop s a with
    | none => rw [hd] at h; simp at h
    | some mid =>
      rw [hd] at h
      simp only [Option.some_bind, Option.bind_eq_bind] at h
      rw [byteDrop_append_right hd u]
      simp only [Option.some_bind, Option.bind_eq_bind]
      exact byteTake_append_left h u
  · rw [if_neg hab] at h; exact absurd h (by simp)

theorem byteSlice_shift {t u c : Str} {n a b : Nat} (hd : byteDrop t n = some u)
    (h : byteSlice u a b = some c) : byteSlice t (n + a) (n + b) = some c := by
  unfold byteSlice at h ⊢
  by_cases hab : a ≤ b
  · rw [if_pos hab] at h
    rw [if_pos (by omega)]
    cases hda : byteDrop u a with
    | none => rw [hda] at h; simp at h
    | some mid =>
      rw [hda] at h
      simp only [Option.some_bind, Option.bind_eq_bind] at h
      rw [byteDrop_byteDrop hd a, hda]
      simp only [Option.some_bind, Option.bind_eq_bind]
      have : n + b - (n + a) = b - a := by omega
      rw [this]
      exact h
  · rw [if_neg hab] at h; exact absurd h (by simp)

theorem byteSlice_full (s : Str) : byteSlice s 0 (bytesLen s) = some s := by
  unfold byteSlice
  rw [if_pos (Nat.zero_le _)]
  show (byteDrop s 0).bind (fun r => byteTake r (bytesLen s - 0)) = some s
  simp only [byteDrop, Option.some_bind, Option.bind_eq_bind, Nat.sub_zero]
  have := byteTake_append s []
  simpa using this

theorem byteSlice_prefix (p s : Str) : byteSlice (p ++ s) 0 (bytesLen p) = some p := by
  unfold byteSlice
  rw [if_pos (Nat.zero_le _)]
  show (byteDrop (p ++ s) 0).bind (fun r => byteTake r (bytesLen p - 0)) = some p
  simp only [byteDrop, Option.some_bind, Option.bind_eq_bind, Nat.sub_zero]
  exact byteTake_append p s

/-! ## Span partition of the structural lexer

The key invariant: every successful `Lexer::next` consumes a non-empty
prefix of `rest`, advances `byte` by exactly its byte length, and stamps
the token with the span `(byte before, byte after)`. -/

theorem append_inj_bytesLen {p1 p2 r1 r2 : Str} (h : p1 ++ r1 = p2 ++ r2)
    (hl : bytesLen p1 = bytesLen p2) : p1 = p2 ∧ r1 = r2 := by
  induction p1 generalizing p2 with
  | nil =>
    have : p2 = [] := bytesLen_eq_zero (by simp [bytesLen] at hl ⊢; omega)
    subst this
    exact ⟨rfl, by simpa using h⟩
  | cons c p1 ih =>
    cases p2 with
    | nil =>
      exfalso
      have := charBytes_pos c
      simp [bytesLen] at hl
      omega
    | cons d p2 =>
      simp only [List.cons_append, List.cons.injEq] at h
      obtain ⟨rfl, h2⟩ := h
      simp only [bytesLen, Nat.add_right_cancel_iff] at hl
      obtain ⟨he, hr⟩ := ih h2 (by omega)
      exact ⟨by rw [he], hr⟩

theorem strFind_eq_zero {pat s : Str} (h : strFind pat s = some 0) :
    pat.isPrefixOf s = true := by
  cases s with
  | nil =>
    by_cases hp : pat.isEmpty
    · have : pat = [] := by cases pat <;> simp_all [List.isEmpty]
      simp [this, List.isPrefixOf]
    · simp [strFind, hp] at h
  | cons c s =>
    by_cases hp : pat.isPrefixOf (c :: s)
    · exact hp
    · exfalso
      simp only [strFind, hp, if_false, Bool.false_eq_true] at h
      cases hf : strFind pat s with
      | none => rw [hf] at h; simp at h
      | some m =>
        rw [hf] at h
        simp only [Option.map_some', Option.some.injEq] at h
        have := charBytes_pos c
        omega

theorem optMin2_eq {a b : Option Nat} {n : Nat} (h : optMin2 a b = some n) :
    a = some n ∨ b = some n := by
  cases a with
  | none => right; simpa [optMin2] using h
  | some x =>
    cases b with
    | none => left; simpa [optMin2] using h
    | some y =>
      simp only [optMin2, Option.some.injEq] at h
      rcases Nat.le_total x y with hxy | hyx
      · left; rw [Nat.min_eq_left hxy] at h; rw [h]
      · right; rw [Nat.min_eq_right hyx] at h; rw [h]

theorem byteSlice_spec {s r : Str} {a b : Nat} (h : byteSlice s a b = some r) :
    a ≤ b ∧ bytesLen r = b - a ∧ ∃ pre suf, s = pre ++ r ++ suf ∧ bytesLen pre = a := by
  unfold byteSlice at h
  by_cases hab : a ≤ b
  · rw [if_pos hab] at h
    cases hd : byteDrop s a with
    | none => rw [hd] at h; simp at h
    | some mid =>
      rw [hd] at h
      simp only [Option.some_bind, Option.bind_some, Option.bind_eq_bind] at h
      obtain ⟨pre, hpre, hplen⟩ := byteDrop_split hd
      obtain ⟨suf, hsuf, hrlen⟩ := byteTake_split h
      exact ⟨hab, hrlen, pre, suf, by rw [hpre, hsuf, List.append_assoc], hplen⟩
  · rw [if_neg hab] at h; exact absurd h (by simp)

theorem prefix_byteTake {pat s : Str} (h : pat <+: s) :
    byteTake s (bytesLen pat) = some pat := by
  obtain ⟨suf, rfl⟩ := h
  exact byteTake_append pat suf

theorem lexTextToEnd_consumes {l : Lexer} (h : l.rest ≠ []) :
    Consumes l l.lexTextToEnd.1 l.lexTextToEnd.2 :=
  ⟨l.rest, by simp [Lexer.lexTextToEnd], h, by simp [Lexer.lexTextToEnd], by
    simp [Lexer.lexTextToEnd, Token.at_],
    0, bytesLen l.rest, by simp [Lexer.lexTextToEnd, Token.contentSpan], by
      simp [Lexer.lexTextToEnd, Token.content, byteSlice_full]⟩

theorem lexTag_consumes_gen {l l' : Lexer} {tok : Token} (endStr : Str)
    (mkTok : Str → Nat × Nat → Token) (hmk : ∀ s a, (mkTok s a).at_ = a)
    (hmkc : ∀ s a, (mkTok s a).contentSpan = (a.1 + 2, a.2 - 2) ∧ (mkTok s a).content = s)
    (hne : l.rest ≠ [])
    (h : (match strFind endStr l.rest with
        | none =>
          some (Token.text l.rest (l.byte, l.byte + bytesLen l.rest),
            { l with rest := [], byte := l.byte + bytesLen l.rest })
        | some n =>
          match byteSlice l.rest START_TAG_LEN n, byteDrop l.rest (n + END_TAG_LEN) with
          | some tag, some rest' =>
            some (mkTok tag (l.byte, l.byte + (bytesLen tag + 4)),
              { l with rest := rest', byte := l.byte + (bytesLen tag + 4) })
          | _, _ => none) = some (tok, l')) :
    Consumes l tok l' := by
  cases hf : strFind endStr l.rest with
  | none =>
    rw [hf] at h
    simp only [Option.some.injEq, Prod.mk.injEq] at h
    obtain ⟨rfl, rfl⟩ := h
    exact ⟨l.rest, by simp, hne, by simp, by simp [Token.at_],
      0, bytesLen l.rest, by simp [Token.contentSpan], by
        simp [Token.content, byteSlice_full]⟩
  | some n =>
    rw [hf] at h
    dsimp only at h
    cases hs : byteSlice l.rest START_TAG_LEN n with
    | none => rw [hs] at h; exact absurd h (by simp)
    | some tag =>
      cases hd : byteDrop l.rest (n + END_TAG_LEN) with
      | none => rw [hs, hd] at h; exact absurd h (by simp)
      | some rest' =>
        rw [hs, hd] at h
        simp only [Option.some.injEq, Prod.mk.injEq] at h
        obtain ⟨rfl, rfl⟩ := h
        obtain ⟨h2n, htag, -⟩ := byteSlice_spec hs
        obtain ⟨pre, hpre, hplen⟩ := byteDrop_split hd
        have hpne : pre ≠ [] := by
          intro hp
          rw [hp] at hplen
          simp only [bytesLen, END_TAG_LEN] at hplen
          omega
        have hlen : bytesLen tag + 4 = n + END_TAG_LEN := by
          simp only [START_TAG_LEN] at htag h2n
          simp only [END_TAG_LEN]
          omega
        refine ⟨pre, hpre, hpne, by simp [hplen, hlen], by simp [hmk], 2,
          bytesLen tag + 2, ?_, ?_⟩
        · rw [(hmkc tag _).1]
          simp only [Prod.mk.injEq]
          exact ⟨trivial, by omega⟩
        · rw [(hmkc tag _).2]
          simp only [START_TAG_LEN] at htag h2n
          have hbn : bytesLen tag + 2 = n := by omega
          rw [hbn]
          exact hs

theorem lexTag_consumes {l l' : Lexer} {tok : Token} {et : EndTag}
    (hne : l.rest ≠ []) (h : l.lexTag et = some (tok, l')) : Consumes l tok l' := by
  cases et
  · exact lexTag_consumes_gen closeVarStr Token.var (fun _ _ => rfl)
      (fun _ _ => ⟨rfl, rfl⟩) hne h
  · exact lexTag_consumes_gen closeTagStr Token.tag (fun _ _ => rfl)
      (fun _ _ => ⟨rfl, rfl⟩) hne h
  · exact lexTag_consumes_gen closeCommentStr Token.comment (fun _ _ => rfl)
      (fun _ _ => ⟨rfl, rfl⟩) hne h

theorem lexText_consumes {l l' : Lexer} {tok : Token}
    (hv : byteTake l.rest START_TAG_LEN ≠ some openVarStr)
    (ht : byteTake l.rest START_TAG_LEN ≠ some openTagStr)
    (hc : byteTake l.rest START_TAG_LEN ≠ some openCommentStr)
    (hne : l.rest ≠ []) (h : l.lexText = some (tok, l')) : Consumes l tok l' := by
  unfold Lexer.lexText at h
  dsimp only at h
  cases hm : optMin2 (strFind openTagStr l.rest)
      (optMin2 (strFind openVarStr l.rest) (strFind openCommentStr l.rest)) with
  | none =>
    rw [hm] at h
    simp only [Option.some.injEq, Prod.mk.injEq] at h
    obtain ⟨rfl, rfl⟩ := h
    exact ⟨l.rest, by simp, hne, by simp, by simp [Token.at_],
      0, bytesLen l.rest, by simp [Token.contentSpan], by
        simp [Token.content, byteSlice_full]⟩
  | some n =>
    rw [hm] at h
    dsimp only at h
    cases htk : byteTake l.rest n with
    | none => rw [htk] at h; exact absurd h (by simp)
    | some text =>
      cases hd : byteDrop l.rest n with
      | none => rw [htk, hd] at h; exact absurd h (by simp)
      | some rest' =>
        rw [htk, hd] at h
        simp only [Option.some.injEq, Prod.mk.injEq] at h
        obtain ⟨rfl, rfl⟩ := h
        have hn0 : n ≠ 0 := by
          intro h0
          subst h0
          rcases optMin2_eq hm with h1 | h2
          · have := strFind_eq_zero h1
            have hpre : openTagStr <+: l.rest := List.isPrefixOf_iff_prefix.mp this
            have := prefix_byteTake hpre
            rw [show bytesLen openTagStr = START_TAG_LEN from rfl] at this
            exact ht this
          · rcases optMin2_eq h2 with h1 | h1
            · have := strFind_eq_zero h1
              have hpre : openVarStr <+: l.rest := List.isPrefixOf_iff_prefix.mp this
              have := prefix_byteTake hpre
              rw [show bytesLen openVarStr = START_TAG_LEN from rfl] at this
              exact hv this
            · have := strFind_eq_zero h1
              have hpre : openCommentStr <+: l.rest := List.isPrefixOf_iff_prefix.mp this
              have := prefix_byteTake hpre
              rw [show bytesLen openCommentStr = START_TAG_LEN from rfl] at this
              exact hc this
        obtain ⟨suf, hsuf, htlen⟩ := byteTake_split htk
        obtain ⟨pre, hpre, hplen⟩ := byteDrop_split hd
        obtain ⟨rfl, rfl⟩ : text = pre ∧ suf = rest' := by
          refine append_inj_bytesLen ?_ (by omega)
          rw [← hsuf, ← hpre]
        have : text ≠ [] := by
          intro h0
          rw [h0] at htlen
          simp [bytesLen] at htlen
          omega
        refine ⟨text, hsuf, this, by simp [htlen], by simp [Token.at_],
          0, bytesLen text, by simp [Token.contentSpan], ?_⟩
        rw [show (Token.text text (l.byte, l.byte + bytesLen text)).content = text
          from rfl]
        rw [hsuf]
        exact byteSlice_prefix _ _

theorem verbLoop_consumes {l : Lexer} {vb : Str} {tok : Token} {l' : Lexer} :
    ∀ (fuel : Nat) (rest : Str) (index : Nat), l.rest ≠ [] →
    verbLoop l vb fuel rest index = .ok (tok, l') → Consumes l tok l' := by
  intro fuel
  induction fuel with
  | zero => intro rest index hne h; simp [verbLoop] at h
  | succ fuel ih =>
    intro rest index hne h
    simp only [verbLoop] at h
    cases h1 : strFind openTagStr rest with
    | none =>
      rw [h1] at h
      simp only [LexRes.ok.injEq] at h
      have := lexTextToEnd_consumes (l := l) hne
      rw [h] at this
      exact this
    | some startTag =>
      rw [h1] at h
      dsimp only at h
      cases h2 : byteDrop rest startTag with
      | none => rw [h2] at h; exact absurd h (by simp)
      | some rest1 =>
        rw [h2] at h
        dsimp only at h
        cases h3 : strFind closeTagStr rest1 with
        | none =>
          rw [h3] at h
          simp only [LexRes.ok.injEq] at h
          have := lexTextToEnd_consumes (l := l) hne
          rw [h] at this
          exact this
        | some endTag =>
          rw [h3] at h
          dsimp only at h
          cases h4 : byteSlice rest1 2 endTag with
          | none => rw [h4] at h; exact absurd h (by simp)
          | some innerRaw =>
            rw [h4] at h
            dsimp only at h
            cases h5 : isCloserCheck (trim innerRaw) vb with
            | none => rw [h5] at h; exact absurd h (by simp)
            | some b =>
              rw [h5] at h
              cases b with
              | false =>
                dsimp only at h
                cases h6 : byteDrop rest1 (endTag + 2) with
                | none => rw [h6] at h; exact absurd h (by simp)
                | some rest2 =>
                  rw [h6] at h
                  exact ih rest2 _ hne h
              | true =>
                dsimp only at h
                cases h7 : byteTake l.rest (index + startTag) with
                | none => rw [h7] at h; exact absurd h (by simp)
                | some text =>
                  rw [h7] at h
                  dsimp only at h
                  by_cases h8 : text = []
                  · rw [if_pos h8] at h
                    cases h9 : byteSlice l.rest 2 endTag with
                    | none => rw [h9] at h; exact absurd h (by simp)
                    | some tag =>
                      rw [h9] at h
                      dsimp only at h
                      cases h10 : byteDrop l.rest (bytesLen tag + 4) with
                      | none => rw [h10] at h; exact absurd h (by simp)
                      | some r' =>
                        rw [h10] at h
                        simp only [LexRes.ok.injEq, Prod.mk.injEq] at h
                        obtain ⟨rfl, rfl⟩ := h
                        obtain ⟨pre, hpre, hplen⟩ := byteDrop_split h10
                        have hpne : pre ≠ [] := by
                          intro hp
                          rw [hp] at hplen
                          simp [bytesLen] at hplen
                        obtain ⟨h2e, htg, -⟩ := byteSlice_spec h9
                        refine ⟨pre, hpre, hpne, by simp [hplen], by simp [Token.at_],
                          2, bytesLen tag + 2, by
                            simp only [Token.contentSpan, Prod.mk.injEq]
                            exact ⟨trivial, by omega⟩, ?_⟩
                        rw [show (Token.tag tag
                          (l.byte, l.byte + (bytesLen tag + 4))).content = tag from rfl]
                        have hbe : bytesLen tag + 2 = endTag := by omega
                        rw [hbe]
                        exact h9
                  · rw [if_neg h8] at h
                    cases h11 : byteDrop l.rest (index + startTag) with
                    | none => rw [h11] at h; exact absurd h (by simp)
                    | some r' =>
                      rw [h11] at h
                      simp only [LexRes.ok.injEq, Prod.mk.injEq] at h
                      obtain ⟨rfl, rfl⟩ := h
                      obtain ⟨suf, hsuf, htlen⟩ := byteTake_split h7
                      obtain ⟨pre, hpre, hplen⟩ := byteDrop_split h11
                      obtain ⟨rfl, rfl⟩ : text = pre ∧ suf = r' := by
                        refine append_inj_bytesLen ?_ (by omega)
                        rw [← hsuf, ← hpre]
                      refine ⟨text, hsuf, h8, by simp [htlen], by simp [Token.at_],
                        0, bytesLen text, by simp [Token.contentSpan, htlen], ?_⟩
                      rw [show (Token.text text
                        (l.byte, l.byte + (index + startTag))).content = text from rfl]
                      rw [hsuf]
                      exact byteSlice_prefix _ _

theorem lexVerbatim_consumes {l l' : Lexer} {vb : Str} {tok : Token}
    (hne : l.rest ≠ []) (h : l.lexVerbatim vb = .ok (tok, l')) : Consumes l tok l' := by
  unfold Lexer.lexVerbatim at h
  dsimp only at h
  have := verbLoop_consumes (l := { l with verbatim := none }) _ _ _ hne h
  obtain ⟨seg, h1, h2, h3, h4, a, b, h5, h6⟩ := this
  exact ⟨seg, h1, h2, h3, h4, a, b, h5, h6⟩

theorem consumes_of_fields {l la lb : Lexer} {tok : Token} (h : Consumes l tok la)
    (hr : lb.rest = la.rest) (hb : lb.byte = la.byte) : Consumes l tok lb := by
  obtain ⟨seg, h1, h2, h3, h4, a, b, h5, h6⟩ := h
  exact ⟨seg, by rw [hr]; exact h1, h2, by rw [hb]; exact h3, by rw [hb]; exact h4,
    a, b, h5, h6⟩

theorem next_consumes {l l' : Lexer} {tok : Token}
    (h : l.next = .ok (some (tok, l'))) : Consumes l tok l' := by
  unfold Lexer.next at h
  by_cases hne : l.rest = []
  · rw [if_pos hne] at h; exact absurd h (by simp)
  · rw [if_neg hne] at h
    cases hvb : l.verbatim with
    | some vb =>
      rw [hvb] at h
      dsimp only at h
      cases hlv : l.lexVerbatim vb with
      | fuelOut => rw [hlv] at h; exact absurd h (by simp)
      | panicked => rw [hlv] at h; exact absurd h (by simp)
      | ok tl =>
        rw [hlv] at h
        simp only [LexRes.ok.injEq, Option.some.injEq] at h
        rw [h] at hlv
        exact lexVerbatim_consumes hne hlv
    | none =>
      rw [hvb] at h
      dsimp only at h
      by_cases hv : byteTake l.rest START_TAG_LEN = some openVarStr
      · rw [if_pos hv] at h
        cases hlt : l.lexTag .var with
        | none => rw [hlt] at h; exact absurd h (by simp)
        | some tl =>
          rw [hlt] at h
          simp only [LexRes.ok.injEq, Option.some.injEq] at h
          rw [h] at hlt
          exact lexTag_consumes hne hlt
      · rw [if_neg hv] at h
        by_cases ht : byteTake l.rest START_TAG_LEN = some openTagStr
        · rw [if_pos ht] at h
          cases hlt : l.lexTag .tag with
          | none => rw [hlt] at h; exact absurd h (by simp)
          | some tl =>
            obtain ⟨tok0, l0⟩ := tl
            rw [hlt] at h
            dsimp only at h
            have hcons := lexTag_consumes hne hlt
            cases tok0 with
            | tag tagContent a =>
              dsimp only at h
              split at h
              · simp only [LexRes.ok.injEq, Option.some.injEq, Prod.mk.injEq] at h
                obtain ⟨rfl, rfl⟩ := h
                exact consumes_of_fields hcons rfl rfl
              · simp only [LexRes.ok.injEq, Option.some.injEq, Prod.mk.injEq] at h
                obtain ⟨rfl, rfl⟩ := h
                exact hcons
            | text c a =>
              simp only [LexRes.ok.injEq, Option.some.injEq, Prod.mk.injEq] at h
              obtain ⟨rfl, rfl⟩ := h
              exact hcons
            | var c a =>
              simp only [LexRes.ok.injEq, Option.some.injEq, Prod.mk.injEq] at h
              obtain ⟨rfl, rfl⟩ := h
              exact hcons
            | comment c a =>
              simp only [LexRes.ok.injEq, Option.some.injEq, Prod.mk.injEq] at h
              obtain ⟨rfl, rfl⟩ := h
              exact hcons
        · rw [if_neg ht] at h
          by_cases hcm : byteTake l.rest START_TAG_LEN = some openCommentStr
          · rw [if_pos hcm] at h
            cases hlt : l.lexTag .comment with
            | none => rw [hlt] at h; exact absurd h (by simp)
            | some tl =>
              rw [hlt] at h
              simp only [LexRes.ok.injEq, Option.some.injEq] at h
              rw [h] at hlt
              exact lexTag_consumes hne hlt
          · rw [if_neg hcm] at h
            cases hlx : l.lexText with
            | none => rw [hlx] at h; exact absurd h (by simp)
            | some tl =>
              rw [hlx] at h
              simp only [LexRes.ok.injEq, Option.some.injEq] at h
              rw [h] at hlx
              exact lexText_consumes hv ht hcm hne hlx

theorem lexerRun_spec : ∀ (fuel : Nat) (t : Str) (l : Lexer) (ts : List Token),
    byteDrop t l.byte = some l.rest → lexerRun fuel l = .out ts →
    spanChain l.byte ts (bytesLen t) = true ∧ sliceConcat t ts = some l.rest := by
  intro fuel
  induction fuel with
  | zero => intro t l ts hinv h; simp [lexerRun] at h
  | succ fuel ih =>
    intro t l ts hinv h
    simp only [lexerRun] at h
    cases hn : l.next with
    | fuelOut => rw [hn] at h; exact absurd h (by simp)
    | panicked => rw [hn] at h; exact absurd h (by simp)
    | ok o =>
      rw [hn] at h
      cases o with
      | none =>
        simp only [RunRes.out.injEq] at h
        subst h
        have : l.byte + bytesLen l.rest = bytesLen t := byteDrop_bytesLen hinv
        have hr : l.rest = [] := by
          simp only [Lexer.next] at hn
          by_cases he : l.rest = []
          · exact he
          · rw [if_neg he] at hn
            exfalso
            cases hvb : l.verbatim with
            | some vb =>
              rw [hvb] at hn
              dsimp only at hn
              cases hlv : l.lexVerbatim vb <;> rw [hlv] at hn <;> simp at hn
            | none =>
              rw [hvb] at hn
              dsimp only at hn
              split at hn
              · cases hlt : l.lexTag .var <;> rw [hlt] at hn <;> simp at hn
              · split at hn
                · cases hlt : l.lexTag .tag <;> rw [hlt] at hn
                  · simp at hn
                  · dsimp only at hn
                    split at hn <;> simp at hn
                · split at hn
                  · cases hlt : l.lexTag .comment <;> rw [hlt] at hn <;> simp at hn
                  · cases hlt : l.lexText <;> rw [hlt] at hn <;> simp at hn
        rw [hr] at this
        simp only [bytesLen] at this
        constructor
        · simp [spanChain]; omega
        · simp [sliceConcat, hr]
      | some tl =>
        obtain ⟨tok, l'⟩ := tl
        dsimp only at h
        cases hrun : lexerRun fuel l' with
        | fuelOut => rw [hrun] at h; exact absurd h (by simp)
        | panicked => rw [hrun] at h; exact absurd h (by simp)
        | out ts' =>
          rw [hrun] at h
          simp only [RunRes.out.injEq] at h
          subst h
          obtain ⟨seg, hseg, hsegne, hbyte, hat, -⟩ := next_consumes hn
          have hinv' : byteDrop t l'.byte = some l'.rest := by
            rw [hbyte]
            rw [byteDrop_byteDrop hinv (bytesLen seg)]
            rw [hseg]
            exact byteDrop_append seg l'.rest
          obtain ⟨hchain, hconcat⟩ := ih t l' ts' hinv' hrun
          have hslice : byteSlice t l.byte l'.byte = some seg := by
            unfold byteSlice
            rw [if_pos (by omega)]
            rw [hinv, hseg]
            simp only [Option.some_bind, Option.bind_eq_bind]
            have : l'.byte - l.byte = bytesLen seg := by omega
            rw [this]
            exact byteTake_append seg l'.rest
          have hsegpos : 0 < bytesLen seg := by
            cases hsg : seg with
            | nil => exact absurd hsg hsegne
            | cons c cs =>
              have := charBytes_pos c
              simp [bytesLen, hsg]
              omega
          constructor
          · have h1 : tok.at_.1 = l.byte := by rw [hat]
            have h2 : tok.at_.2 = l'.byte := by rw [hat]
            simp only [spanChain, h1, h2, hchain, Bool.and_true, beq_self_eq_true,
              Bool.true_and, decide_eq_true_eq]
            omega
          · have h1 : tok.at_.1 = l.byte := by rw [hat]
            have h2 : tok.at_.2 = l'.byte := by rw [hat]
            simp only [sliceConcat, h1, h2]
            rw [hslice, hconcat, hseg]

/-- Every token produced by a full run of the structural lexer re-derives
its content by slicing the template at its content span. -/
theorem lexerRun_contentOK : ∀ (fuel : Nat) (t : Str) (l : Lexer) (ts : List Token),
    byteDrop t l.byte = some l.rest → lexerRun fuel l = .out ts →
    ∀ tok ∈ ts, TokenContentOK t tok := by
  intro fuel
  induction fuel with
  | zero => intro t l ts hinv h; simp [lexerRun] at h
  | succ fuel ih =>
    intro t l ts hinv h
    simp only [lexerRun] at h
    cases hn : l.next with
    | fuelOut => rw [hn] at h; exact absurd h (by simp)
    | panicked => rw [hn] at h; exact absurd h (by simp)
    | ok o =>
      rw [hn] at h
      cases o with
      | none =>
        simp only [RunRes.out.injEq] at h
        subst h
        intro tok htok
        exact absurd htok (by simp)
      | some tl =>
        obtain ⟨tok, l'⟩ := tl
        dsimp only at h
        cases hrun : lexerRun fuel l' with
        | fuelOut => rw [hrun] at h; exact absurd h (by simp)
        | panicked => rw [hrun] at h; exact absurd h (by simp)
        | out ts' =>
          rw [hrun] at h
          simp only [RunRes.out.injEq] at h
          subst h
          obtain ⟨seg, hseg, hsegne, hbyte, hat, a, b, hsp, hsl⟩ := next_consumes hn
          have hinv' : byteDrop t l'.byte = some l'.rest := by
            rw [hbyte]
            rw [byteDrop_byteDrop hinv (bytesLen seg)]
            rw [hseg]
            exact byteDrop_append seg l'.rest
          intro tk htk
          cases htk with
          | head =>
            unfold TokenContentOK
            rw [hsp]
            have hu : byteDrop t l.byte = some l.rest := hinv
            exact byteSlice_shift hu hsl
          | tail _ hmem => exact ih t l' ts' hinv' hrun tk hmem

/-! ## Content spans of expression tokens

The expression lexer satisfies the same zero-copy discipline, relative to
the invariant `VInv`: provided the template contains no backslash (the
escape path of `lex_text` is broken — see the C8 result — and both
corrupts state and panics when a backslash is scanned), every `Ok` token it
emits re-derives its content by slicing the template at its content
span. -/

theorem vinv_mem {t : Str} {s : VariableLexer} {c : Char} (h : VInv t s)
    (hc : c ∈ s.rest) : c ∈ t := by
  obtain ⟨tail, htail⟩ := h
  obtain ⟨pre, hpre, -⟩ := byteDrop_split htail
  rw [hpre]
  simp only [List.mem_append]
  right; left; exact hc

theorem vinv_shift {t : Str} {s : VariableLexer} {c : Str} {a b : Nat} (h : VInv t s)
    (hs : byteSlice s.rest a b = some c) :
    byteSlice t (s.byte + a) (s.byte + b) = some c := by
  obtain ⟨tail, htail⟩ := h
  exact byteSlice_shift htail (byteSlice_append_left hs tail)

theorem vinv_advance {t : Str} {s : VariableLexer} {r : Str} {k : Nat} (h : VInv t s)
    (hd : byteDrop s.rest k = some r) :
    ∃ tail, byteDrop t (s.byte + k) = some (r ++ tail) := by
  obtain ⟨tail, htail⟩ := h
  refine ⟨tail, ?_⟩
  rw [byteDrop_byteDrop htail k]
  exact byteDrop_append_right hd tail

theorem vinv_same_pos {t : Str} {s : VariableLexer} (h : VInv t s) {m : VMode} :
    VInv t { s with mode := m } := h

theorem vinv_clear {t : Str} {s : VariableLexer} (h : VInv t s) :
    VInv t { s with rest := [] } := by
  obtain ⟨tail, htail⟩ := h
  exact ⟨s.rest ++ tail, by simpa using htail⟩

/-- A prefix slice of `rest`, shifted to the template. -/
theorem vinv_prefix {t : Str} {s : VariableLexer} {p u : Str} (h : VInv t s)
    (hp : s.rest = p ++ u) :
    byteSlice t s.byte (s.byte + bytesLen p) = some p := by
  have : byteSlice s.rest 0 (bytesLen p) = some p := by
    rw [hp]; exact byteSlice_prefix p u
  have := vinv_shift h this
  simpa using this

theorem lexToEnd_spec {t : Str} {s : VariableLexer} (h : VInv t s)
    (tokenType : VariableTokenType) :
    VInv t (s.lexToEnd tokenType).2 ∧
    (s.lexToEnd tokenType).1 =
      ⟨tokenType, s.rest, (s.byte, s.byte + bytesLen s.rest)⟩ ∧
    byteSlice t s.byte (s.byte + bytesLen s.rest) = some s.rest := by
  refine ⟨?_, rfl, ?_⟩
  · obtain ⟨tail, htail⟩ := h
    refine ⟨tail, ?_⟩
    show byteDrop t (s.byte + bytesLen s.rest) = some ([] ++ tail)
    rw [List.nil_append, byteDrop_byteDrop htail (bytesLen s.rest)]
    exact byteDrop_append s.rest tail
  · exact vinv_prefix h (List.append_nil s.rest).symm

theorem lexToNext_spec {t : Str} {s s' : VariableLexer} {tok : VariableToken}
    {next : Nat} {tokenType : VariableTokenType} (h : VInv t s)
    (hl : s.lexToNext next tokenType = some (tok, s')) :
    VInv t s' ∧ ∃ content, tok = ⟨tokenType, content, (s.byte, s.byte + bytesLen content)⟩ ∧
      s'.byte = s.byte + bytesLen content + 1 ∧ s'.mode = s.mode ∧
      byteSlice t s.byte (s.byte + bytesLen content) = some content := by
  unfold VariableLexer.lexToNext at hl
  cases htk : byteTake s.rest next with
  | none => rw [htk] at hl; exact absurd hl (by simp)
  | some content =>
    cases hd : byteDrop s.rest (next + 1) with
    | none => rw [htk, hd] at hl; exact absurd hl (by simp)
    | some rest' =>
      rw [htk, hd] at hl
      simp only [Option.some.injEq, Prod.mk.injEq] at hl
      obtain ⟨rfl, rfl⟩ := hl
      have hcl : bytesLen content = next := byteTake_bytesLen htk
      obtain ⟨suf, hsuf, -⟩ := byteTake_split htk
      refine ⟨?_, content, by simp [hcl], by simp [hcl], by simp, ?_⟩
      · obtain ⟨tail, htail⟩ := vinv_advance h hd
        exact ⟨tail, by simpa [hcl, Nat.add_assoc] using htail⟩
      · exact vinv_prefix h hsuf

theorem lexNumeric_spec {t : Str} {s s' : VariableLexer} {tok : VariableToken}
    (h : VInv t s) (hl : s.lexNumeric = some (tok, s')) :
    VInv t s' ∧ ∃ content, tok = ⟨.numeric, content, (s.byte, s.byte + bytesLen content)⟩ ∧
      byteSlice t s.byte (s.byte + bytesLen content) = some content := by
  unfold VariableLexer.lexNumeric at hl
  dsimp only at hl
  cases htk : byteTake s.rest ((strFindP
      (fun c => !(isAsciiDigit c || c = '.' || c = 'e')) s.rest).getD (bytesLen s.rest)) with
  | none => rw [htk] at hl; exact absurd hl (by simp)
  | some content =>
    cases hd : byteDrop s.rest ((strFindP
        (fun c => !(isAsciiDigit c || c = '.' || c = 'e')) s.rest).getD (bytesLen s.rest)) with
    | none => rw [htk, hd] at hl; exact absurd hl (by simp)
    | some rest' =>
      rw [htk, hd] at hl
      simp only [Option.some.injEq, Prod.mk.injEq] at hl
      obtain ⟨rfl, rfl⟩ := hl
      have hcl := byteTake_bytesLen htk
      obtain ⟨suf, hsuf, -⟩ := byteTake_split htk
      refine ⟨?_, content, by rw [hcl], ?_⟩
      · obtain ⟨tail, htail⟩ := vinv_advance h hd
        exact ⟨tail, by simpa [hcl] using htail⟩
      · exact vinv_prefix h hsuf

theorem lexVariable_spec {t : Str} {s s' : VariableLexer} {tok : VariableToken}
    (h : VInv t s) (hl : s.lexVariable = some (tok, s')) :
    VInv t s' ∧ ∃ content, tok = ⟨.var, content, (s.byte, s.byte + bytesLen content)⟩ ∧
      byteSlice t s.byte (s.byte + bytesLen content) = some content := by
  unfold VariableLexer.lexVariable at hl
  cases hf : strFind pipeStr s.rest with
  | none =>
    rw [hf] at hl
    simp only [Option.some.injEq, Prod.mk.injEq] at hl
    obtain ⟨rfl, rfl⟩ := hl
    obtain ⟨hv, he, hs⟩ := lexToEnd_spec h VariableTokenType.var
    exact ⟨hv, s.rest, rfl, hs⟩
  | some n =>
    rw [hf] at hl
    obtain ⟨hv, content, he, -, -, hs⟩ := lexToNext_spec h hl
    exact ⟨hv, content, he, hs⟩

theorem lexTextGo_spec {t : Str} (next : VariableLexer → VLexStep) :
    ∀ (chars : Str) (s : VariableLexer) (endc : Char) (count : Nat)
      {r : VResult} {s' : VariableLexer} {rem : Str},
    VInv t s → '\\' ∉ chars →
    lexTextGo next s chars endc count = .res r s' rem →
    VInv t s' ∧
    ∀ tok, r = .ok tok → tok.tokenType = .text ∧ VTokenContentOK t tok ∧
      tok.at_.1 = s.byte ∧ tok.at_.2 = s'.byte ∧
      s'.byte = s.byte + bytesLen tok.content + 2 := by
  intro chars
  induction chars with
  | nil =>
    intro s endc count r s' rem h hb hl
    simp only [lexTextGo, LtRes.res.injEq] at hl
    obtain ⟨rfl, rfl, rfl⟩ := hl
    exact ⟨vinv_clear h, fun tok htok => by cases htok⟩
  | cons c chars ih =>
    intro s endc count r s' rem h hb hl
    have hbc : ¬(c = '\\') := fun hc => hb (by rw [hc]; exact List.mem_cons_self _ _)
    have hbt : '\\' ∉ chars := fun hm => hb (List.mem_cons_of_mem c hm)
    simp only [lexTextGo] at hl
    rw [if_neg hbc] at hl
    by_cases hce : c = endc
    · rw [if_pos hce] at hl
      cases hsl : byteSlice s.rest 1 (count + 1 - 1) with
      | none => rw [hsl] at hl; exact absurd hl (by simp)
      | some content =>
        cases hdr : byteDrop s.rest (count + 1) with
        | none => rw [hsl, hdr] at hl; exact absurd hl (by simp)
        | some rest' =>
          rw [hsl, hdr] at hl
          simp only [LtRes.res.injEq] at hl
          obtain ⟨rfl, rfl, rfl⟩ := hl
          obtain ⟨h1m, hclen, -⟩ := byteSlice_spec hsl
          have hm2 : 2 ≤ count + 1 := by omega
          constructor
          · obtain ⟨tail, htail⟩ := vinv_advance h hdr
            refine ⟨tail, ?_⟩
            have : s.byte + bytesLen content + 2 = s.byte + (count + 1) := by omega
            rw [this]
            exact htail
          · intro tok htok
            obtain rfl := (VResult.ok.injEq _ _).mp htok.symm
            refine ⟨rfl, ?_, rfl, rfl, rfl⟩
            unfold VTokenContentOK
            show byteSlice t (s.byte + 1) (s.byte + bytesLen content + 2 - 1) =
              some content
            have harith : s.byte + bytesLen content + 2 - 1 = s.byte + (count + 1 - 1) := by
              omega
            rw [harith]
            exact vinv_shift h hsl
    · rw [if_neg hce] at hl
      exact ih s endc (count + 1) h hbt hl

theorem lexTranslatedGo_spec {t : Str} (next : VariableLexer → VLexStep)
    {chars : Str} {s s' : VariableLexer} {r : VResult} {rem : Str}
    (h : VInv t s) (hb : '\\' ∉ chars)
    (hl : lexTranslatedGo next s chars = .res r s' rem) :
    VInv t s' ∧ ∀ tok, r = .ok tok → VTokenContentOK t tok := by
  unfold lexTranslatedGo at hl
  dsimp only at hl
  cases hd2 : byteDrop s.rest 2 with
  | none => rw [hd2] at hl; exact absurd hl (by simp)
  | some rest2 =>
    rw [hd2] at hl
    dsimp only at hl
    have h2 : VInv t { s with byte := s.byte + 2, rest := rest2 } := by
      obtain ⟨tail, htail⟩ := vinv_advance h hd2
      exact ⟨tail, htail⟩
    cases chars with
    | nil =>
      simp only [LtRes.res.injEq] at hl
      obtain ⟨rfl, rfl, rfl⟩ := hl
      exact ⟨vinv_clear h2, fun tok htok => by cases htok⟩
    | cons c chars' =>
      have hbt : '\\' ∉ chars' := fun hm => hb (List.mem_cons_of_mem c hm)
      dsimp only at hl
      by_cases hq : c = '\'' ∨ c = '"'
      · rw [if_pos hq] at hl
        cases hlt : lexTextGo next { s with byte := s.byte + 2, rest := rest2 } chars' c 1 with
        | fuelOut => rw [hlt] at hl; exact absurd hl (by simp)
        | panicked => rw [hlt] at hl; exact absurd hl (by simp)
        | res rt st charst =>
          rw [hlt] at hl
          obtain ⟨hvt, htok⟩ := lexTextGo_spec next chars' _ c 1 h2 hbt hlt
          cases rt with
          | error e =>
            simp only [LtRes.res.injEq] at hl
            obtain ⟨rfl, rfl, rfl⟩ := hl
            exact ⟨hvt, fun tok htk => by cases htk⟩
          | ok token =>
            obtain ⟨tt, hcok, hat1, hat2, hbyte⟩ := htok token rfl
            dsimp only at hl
            split at hl
            · cases hd1 : byteDrop st.rest 1 with
              | none => rw [hd1] at hl; exact absurd hl (by simp)
              | some r1 =>
                rw [hd1] at hl
                dsimp only at hl
                simp only [LtRes.res.injEq] at hl
                obtain ⟨rfl, rfl, rfl⟩ := hl
                constructor
                · obtain ⟨tail, htail⟩ := vinv_advance hvt hd1
                  exact ⟨tail, htail⟩
                · intro tok htk
                  cases htk
                  unfold VTokenContentOK
                  show byteSlice t (s.byte + 3) (st.byte + 1 - 2) = some token.content
                  unfold VTokenContentOK at hcok
                  unfold VariableToken.contentSpan at hcok
                  rw [tt] at hcok
                  dsimp only at hcok
                  rw [hat1] at hcok
                  have e1 : s.byte + 2 + 1 = s.byte + 3 := by omega
                  have e2 : st.byte + 1 - 2 = token.at_.2 - 1 := by omega
                  rw [e1] at hcok
                  rw [e2]
                  exact hcok
            · simp only [LtRes.res.injEq] at hl
              obtain ⟨rfl, rfl, rfl⟩ := hl
              exact ⟨vinv_clear hvt, fun tok htk => by cases htk⟩
      · rw [if_neg hq] at hl
        simp only [LtRes.res.injEq] at hl
        obtain ⟨rfl, rfl, rfl⟩ := hl
        exact ⟨vinv_clear h2, fun tok htk => by cases htk⟩

theorem remainderCheck_spec {t : Str} {s : VariableLexer} {token r : VResult}
    {s' : VariableLexer} (h : VInv t s)
    (hl : remainderCheck s token = .item r s') :
    VInv t s' ∧ (r = token ∨ ∃ sp, r = .error (.invalidRemainder sp)) := by
  unfold remainderCheck at hl
  cases hf : strFind pipeStr s.rest with
  | some n =>
    rw [hf] at hl
    dsimp only at hl
    cases htk : byteTake s.rest n with
    | none =>
      cases hdr : byteDrop s.rest (n + 1) <;> rw [htk, hdr] at hl <;>
        exact absurd hl (by simp)
    | some remainder =>
      cases hdr : byteDrop s.rest (n + 1) with
      | none => rw [htk, hdr] at hl; exact absurd hl (by simp)
      | some rest' =>
        rw [htk, hdr] at hl
        dsimp only at hl
        split at hl
        · simp only [VLexStep.item.injEq] at hl
          obtain ⟨rfl, rfl⟩ := hl
          constructor
          · obtain ⟨tail, htail⟩ := vinv_advance h hdr
            exact ⟨tail, by simpa [Nat.add_assoc] using htail⟩
          · exact Or.inl rfl
        · simp only [VLexStep.item.injEq] at hl
          obtain ⟨rfl, rfl⟩ := hl
          exact ⟨vinv_clear h, Or.inr ⟨_, rfl⟩⟩
  | none =>
    rw [hf] at hl
    dsimp only at hl
    split at hl
    · simp only [VLexStep.item.injEq] at hl
      obtain ⟨rfl, rfl⟩ := hl
      exact ⟨h, Or.inl rfl⟩
    · simp only [VLexStep.item.injEq] at hl
      obtain ⟨rfl, rfl⟩ := hl
      exact ⟨vinv_clear h, Or.inr ⟨_, rfl⟩⟩

theorem varNextGo_item_spec {t : Str} (next : VariableLexer → VLexStep)
    {s : VariableLexer} {r : VResult} {s' : VariableLexer}
    (h : VInv t s) (hb : '\\' ∉ t)
    (hl : varNextGo next s = .item r s') :
    VInv t s' ∧ ∀ tok, r = .ok tok → VTokenContentOK t tok := by
  have hbr : '\\' ∉ s.rest := fun hm => hb (vinv_mem h hm)
  obtain ⟨rest, byte, mode⟩ := s
  unfold varNextGo at hl
  split at hl
  · exact absurd hl (by simp)
  · cases mode with
    | var =>
      dsimp only at hl
      cases hlv : VariableLexer.lexVariable ⟨rest, byte, .filter⟩ with
      | none => rw [hlv] at hl; exact absurd hl (by simp)
      | some p =>
        obtain ⟨tok, s2⟩ := p
        rw [hlv] at hl
        simp only [VLexStep.item.injEq] at hl
        obtain ⟨rfl, rfl⟩ := hl
        obtain ⟨hv, content, rfl, hs⟩ :=
          lexVariable_spec (s := ⟨rest, byte, VMode.filter⟩) h hlv
        refine ⟨hv, fun tok htk => ?_⟩
        cases htk
        exact hs
    | filter =>
      dsimp only at hl
      cases hf : strFind pipeStr rest with
      | none =>
        cases hc : strFind colonStr rest with
        | none =>
          rw [hf, hc] at hl
          dsimp only at hl
          cases he : VariableLexer.lexToEnd ⟨rest, byte, .filter⟩ .filter with
          | mk tok s2 =>
            rw [he] at hl
            dsimp only at hl
            simp only [VLexStep.item.injEq] at hl
            obtain ⟨rfl, rfl⟩ := hl
            have hspec := lexToEnd_spec (t := t) (s := ⟨rest, byte, .filter⟩) h
              VariableTokenType.filter
            rw [he] at hspec
            obtain ⟨hv, htok, hs⟩ := hspec
            refine ⟨hv, fun tok' htk => ?_⟩
            cases htk
            have htok' : tok = ⟨.filter, rest, (byte, byte + bytesLen rest)⟩ := htok
            rw [htok']
            exact hs
        | some a =>
          rw [hf, hc] at hl
          dsimp only at hl
          cases hlt : VariableLexer.lexToNext ⟨rest, byte, .argument⟩ a .filter with
          | none => rw [hlt] at hl; exact absurd hl (by simp)
          | some p =>
            obtain ⟨tok, s2⟩ := p
            rw [hlt] at hl
            simp only [VLexStep.item.injEq] at hl
            obtain ⟨rfl, rfl⟩ := hl
            obtain ⟨hv, content, rfl, -, -, hs⟩ :=
              lexToNext_spec (s := ⟨rest, byte, VMode.argument⟩) h hlt
            refine ⟨hv, fun tok' htk => ?_⟩
            cases htk
            exact hs
      | some f =>
        cases hc : strFind colonStr rest with
        | none =>
          rw [hf, hc] at hl
          dsimp only at hl
          cases hlt : VariableLexer.lexToNext ⟨rest, byte, .filter⟩ f .filter with
          | none => rw [hlt] at hl; exact absurd hl (by simp)
          | some p =>
            obtain ⟨tok, s2⟩ := p
            rw [hlt] at hl
            simp only [VLexStep.item.injEq] at hl
            obtain ⟨rfl, rfl⟩ := hl
            obtain ⟨hv, content, rfl, -, -, hs⟩ :=
              lexToNext_spec (s := ⟨rest, byte, VMode.filter⟩) h hlt
            refine ⟨hv, fun tok' htk => ?_⟩
            cases htk
            exact hs
        | some a =>
          rw [hf, hc] at hl
          dsimp only at hl
          split at hl
          · cases hlt : VariableLexer.lexToNext ⟨rest, byte, .argument⟩ a .filter with
            | none => rw [hlt] at hl; exact absurd hl (by simp)
            | some p =>
              obtain ⟨tok, s2⟩ := p
              rw [hlt] at hl
              simp only [VLexStep.item.injEq] at hl
              obtain ⟨rfl, rfl⟩ := hl
              obtain ⟨hv, content, rfl, -, -, hs⟩ :=
                lexToNext_spec (s := ⟨rest, byte, VMode.argument⟩) h hlt
              refine ⟨hv, fun tok' htk => ?_⟩
              cases htk
              exact hs
          · cases hlt : VariableLexer.lexToNext ⟨rest, byte, .filter⟩ f .filter with
            | none => rw [hlt] at hl; exact absurd hl (by simp)
            | some p =>
              obtain ⟨tok, s2⟩ := p
              rw [hlt] at hl
              simp only [VLexStep.item.injEq] at hl
              obtain ⟨rfl, rfl⟩ := hl
              obtain ⟨hv, content, rfl, -, -, hs⟩ :=
                lexToNext_spec (s := ⟨rest, byte, VMode.filter⟩) h hlt
              refine ⟨hv, fun tok' htk => ?_⟩
              cases htk
              exact hs
    | argument =>
      dsimp only at hl
      cases rest with
      | nil => exact absurd hl (by simp)
      | cons c restTail =>
        dsimp only at hl
        by_cases hund : c = '_'
        · rw [if_pos hund] at hl
          subst hund
          split at hl
          · rename_i chars2 hne
            cases hlt : lexTranslatedGo next ⟨'_' :: '(' :: chars2, byte, .filter⟩
                chars2 with
            | fuelOut => rw [hlt] at hl; exact absurd hl (by simp)
            | panicked => rw [hlt] at hl; exact absurd hl (by simp)
            | res token s2 rem =>
              rw [hlt] at hl
              have hb2 : '\\' ∉ chars2 := fun hm => hbr
                (List.mem_cons_of_mem _ (List.mem_cons_of_mem _ hm))
              obtain ⟨hv2, hok⟩ :=
                lexTranslatedGo_spec (s := ⟨'_' :: '(' :: chars2, byte, VMode.filter⟩)
                  next h hb2 hlt
              obtain ⟨hv', hd⟩ := remainderCheck_spec hv2 hl
              refine ⟨hv', fun tok htk => ?_⟩
              rcases hd with rfl | ⟨sp, rfl⟩
              · exact hok tok htk
              · cases htk
          · simp only [VLexStep.item.injEq] at hl
            obtain ⟨rfl, rfl⟩ := hl
            constructor
            · have hde : byteDrop ('_' :: restTail) (bytesLen ('_' :: restTail)) =
                  some [] := by
                have := byteDrop_append ('_' :: restTail) ([] : Str)
                simpa using this
              obtain ⟨tail, htail⟩ := vinv_advance h hde
              exact ⟨tail, htail⟩
            · intro tok htk; cases htk
        · rw [if_neg hund] at hl
          by_cases hq : c = '\'' ∨ c = '"'
          · rw [if_pos hq] at hl
            cases hlt : lexTextGo next ⟨c :: restTail, byte, .filter⟩ restTail c 1 with
            | fuelOut => rw [hlt] at hl; exact absurd hl (by simp)
            | panicked => rw [hlt] at hl; exact absurd hl (by simp)
            | res token s2 rem =>
              rw [hlt] at hl
              have hb2 : '\\' ∉ restTail := fun hm => hbr (List.mem_cons_of_mem _ hm)
              obtain ⟨hv2, hok⟩ :=
                lexTextGo_spec next restTail ⟨c :: restTail, byte, VMode.filter⟩ c 1
                  h hb2 hlt
              obtain ⟨hv', hd⟩ := remainderCheck_spec hv2 hl
              refine ⟨hv', fun tok htk => ?_⟩
              rcases hd with rfl | ⟨sp, rfl⟩
              · exact (hok tok htk).2.1
              · cases htk
          · rw [if_neg hq] at hl
            by_cases hdig : isAsciiDigit c = true
            · rw [if_pos hdig] at hl
              cases hn : VariableLexer.lexNumeric ⟨c :: restTail, byte, .filter⟩ with
              | none => rw [hn] at hl; exact absurd hl (by simp)
              | some p =>
                obtain ⟨tok, s2⟩ := p
                rw [hn] at hl
                obtain ⟨hv2, content, rfl, hs⟩ :=
                  lexNumeric_spec (s := ⟨c :: restTail, byte, VMode.filter⟩) h hn
                obtain ⟨hv', hd⟩ := remainderCheck_spec hv2 hl
                refine ⟨hv', fun tok' htk => ?_⟩
                rcases hd with rfl | ⟨sp, rfl⟩
                · cases htk
                  exact hs
                · cases htk
            · rw [if_neg hdig] at hl
              cases hlv : VariableLexer.lexVariable ⟨c :: restTail, byte, .filter⟩ with
              | none => rw [hlv] at hl; exact absurd hl (by simp)
              | some p =>
                obtain ⟨tok, s2⟩ := p
                rw [hlv] at hl
                simp only [VLexStep.item.injEq] at hl
                obtain ⟨rfl, rfl⟩ := hl
                obtain ⟨hv, content, rfl, hs⟩ :=
                  lexVariable_spec (s := ⟨c :: restTail, byte, VMode.filter⟩) h hlv
                refine ⟨hv, fun tok' htk => ?_⟩
                cases htk
                exact hs

theorem varNext_item_spec {t : Str} {fuel : Nat} {s : VariableLexer} {r : VResult}
    {s' : VariableLexer} (h : VInv t s) (hb : '\\' ∉ t)
    (hl : varNext fuel s = .item r s') :
    VInv t s' ∧ ∀ tok, r = .ok tok → VTokenContentOK t tok := by
  cases fuel with
  | zero => exact absurd hl (by simp [varNext])
  | succ fuel => exact varNextGo_item_spec (varNext fuel) h hb hl

theorem varRun_contentOK {t : Str} (hb : '\\' ∉ t) :
    ∀ (outer : Nat) {fuel : Nat} {s : VariableLexer} {rs : List VResult},
    VInv t s → varRun outer fuel s = .out rs →
    ∀ r ∈ rs, ∀ tok, r = .ok tok → VTokenContentOK t tok := by
  intro outer
  induction outer with
  | zero => intro fuel s rs h hr; exact absurd hr (by simp [varRun])
  | succ outer ih =>
    intro fuel s rs h hr
    unfold varRun at hr
    cases hn : varNext fuel s with
    | fuelOut => rw [hn] at hr; exact absurd hr (by simp)
    | panicked => rw [hn] at hr; exact absurd hr (by simp)
    | done =>
      rw [hn] at hr
      simp only [RunRes.out.injEq] at hr
      subst hr
      exact fun r hm => absurd hm (List.not_mem_nil r)
    | item r0 s2 =>
      rw [hn] at hr
      dsimp only at hr
      obtain ⟨hv2, hok⟩ := varNext_item_spec h hb hn
      cases hrr : varRun outer fuel s2 with
      | fuelOut => rw [hrr] at hr; exact absurd hr (by simp)
      | panicked => rw [hrr] at hr; exact absurd hr (by simp)
      | out rs2 =>
        rw [hrr] at hr
        simp only [RunRes.out.injEq] at hr
        subst hr
        intro r hm tok htk
        rcases List.mem_cons.mp hm with rfl | hm2
        · exact hok tok htk
        · exact ih hv2 hrr r hm2 tok htk

theorem trimEnd_prefix (s : Str) : ∃ suf, s = trimEnd s ++ suf := by
  refine ⟨(s.reverse.takeWhile rustIsWhitespace).reverse, ?_⟩
  unfold trimEnd
  rw [← List.reverse_append, List.takeWhile_append_dropWhile, List.reverse_reverse]

/-- `VariableLexer::new` positioned at `start` is a valid view of `t`
whenever the variable content sits in `t` at byte offset `start`. -/
theorem newAt_vinv {t variable_ tail : Str} {start : Nat}
    (h : byteDrop t start = some (variable_ ++ tail)) :
    VInv t (VariableLexer.newAt variable_ start) := by
  obtain ⟨suf, hsuf⟩ := trimEnd_prefix (trimStart variable_)
  have hdecomp : variable_ =
      variable_.takeWhile rustIsWhitespace ++ trimStart variable_ :=
    (List.takeWhile_append_dropWhile (p := rustIsWhitespace) (l := variable_)).symm
  have hlen : bytesLen variable_ =
      bytesLen (variable_.takeWhile rustIsWhitespace) +
        bytesLen (trimStart variable_) := by
    conv_lhs => rw [hdecomp]
    exact bytesLen_append _ _
  refine ⟨suf ++ tail, ?_⟩
  show byteDrop t (start + (bytesLen variable_ - bytesLen (trimStart variable_))) =
    some (trimEnd (trimStart variable_) ++ (suf ++ tail))
  have e : bytesLen variable_ - bytesLen (trimStart variable_) =
      bytesLen (variable_.takeWhile rustIsWhitespace) := by omega
  rw [e, byteDrop_byteDrop h (bytesLen (variable_.takeWhile rustIsWhitespace))]
  have hrw : variable_ ++ tail =
      variable_.takeWhile rustIsWhitespace ++
        (trimEnd (trimStart variable_) ++ (suf ++ tail)) := by
    conv_lhs => rw [hdecomp]
    rw [List.append_assoc]
    congr 1
    rw [← List.append_assoc, ← hsuf]
  rw [hrw]
  exact byteDrop_append _ _

theorem lexTextGo_error_state (next : VariableLexer → VLexStep) :
    ∀ (chars : Str) (s : VariableLexer) (endc : Char) (count : Nat)
      {e : VariableLexerError} {s' : VariableLexer} {rem : Str},
    lexTextGo next s chars endc count = .res (.error e) s' rem → s'.rest = [] := by
  intro chars
  induction chars with
  | nil =>
    intro s endc count e s' rem hl
    simp only [lexTextGo, LtRes.res.injEq] at hl
    obtain ⟨-, rfl, -⟩ := hl
    rfl
  | cons c chars ih =>
    intro s endc count e s' rem hl
    simp only [lexTextGo] at hl
    by_cases hbc : c = '\\'
    · rw [if_pos hbc] at hl
      cases hnx : next s with
      | fuelOut => rw [hnx] at hl; exact absurd hl (by simp)
      | panicked => rw [hnx] at hl; exact absurd hl (by simp)
      | done => rw [hnx] at hl; exact ih s endc (count + 1 + 1) hl
      | item r s2 => rw [hnx] at hl; exact ih s2 endc (count + 1 + 1) hl
    · rw [if_neg hbc] at hl
      by_cases hce : c = endc
      · rw [if_pos hce] at hl
        cases hsl : byteSlice s.rest 1 (count + 1 - 1) with
        | none =>
          cases hdr : byteDrop s.rest (count + 1) <;> rw [hsl, hdr] at hl <;>
            exact absurd hl (by simp)
        | some content =>
          cases hdr : byteDrop s.rest (count + 1) with
          | none => rw [hsl, hdr] at hl; exact absurd hl (by simp)
          | some rest' =>
            rw [hsl, hdr] at hl
            simp only [LtRes.res.injEq] at hl
            exact absurd hl.1 (by simp)
      · rw [if_neg hce] at hl
        exact ih s endc (count + 1) hl

theorem lexTranslatedGo_error_state (next : VariableLexer → VLexStep)
    {chars : Str} {s : VariableLexer} {e : VariableLexerError} {s' : VariableLexer}
    {rem : Str}
    (hl : lexTranslatedGo next s chars = .res (.error e) s' rem) : s'.rest = [] := by
  unfold lexTranslatedGo at hl
  dsimp only at hl
  cases hd2 : byteDrop s.rest 2 with
  | none => rw [hd2] at hl; exact absurd hl (by simp)
  | some rest2 =>
    rw [hd2] at hl
    dsimp only at hl
    cases chars with
    | nil =>
      simp only [LtRes.res.injEq] at hl
      obtain ⟨-, rfl, -⟩ := hl
      rfl
    | cons c chars' =>
      dsimp only at hl
      by_cases hq : c = '\'' ∨ c = '"'
      · rw [if_pos hq] at hl
        cases hlt : lexTextGo next { s with byte := s.byte + 2, rest := rest2 }
            chars' c 1 with
        | fuelOut => rw [hlt] at hl; exact absurd hl (by simp)
        | panicked => rw [hlt] at hl; exact absurd hl (by simp)
        | res rt st charst =>
          rw [hlt] at hl
          cases rt with
          | error e2 =>
            simp only [LtRes.res.injEq] at hl
            obtain ⟨-, rfl, -⟩ := hl
            exact lexTextGo_error_state next chars' _ c 1 hlt
          | ok token =>
            dsimp only at hl
            split at hl
            · cases hd1 : byteDrop st.rest 1 with
              | none => rw [hd1] at hl; exact absurd hl (by simp)
              | some r1 =>
                rw [hd1] at hl
                dsimp only at hl
                simp only [LtRes.res.injEq] at hl
                exact absurd hl.1 (by simp)
            · simp only [LtRes.res.injEq] at hl
              obtain ⟨-, rfl, -⟩ := hl
              rfl
      · rw [if_neg hq] at hl
        simp only [LtRes.res.injEq] at hl
        obtain ⟨-, rfl, -⟩ := hl
        rfl

theorem remainderCheck_nil {b : Nat} {m : VMode} (token : VResult) :
    remainderCheck ⟨[], b, m⟩ token = .item token ⟨[], b, m⟩ := rfl

theorem remainderCheck_error_state {s : VariableLexer} {tok0 : VariableToken}
    {r : VResult} {s' : VariableLexer}
    (hl : remainderCheck s (.ok tok0) = .item r s') {e : VariableLexerError}
    (he : r = .error e) : s'.rest = [] := by
  unfold remainderCheck at hl
  cases hf : strFind pipeStr s.rest with
  | some n =>
    rw [hf] at hl
    dsimp only at hl
    cases htk : byteTake s.rest n with
    | none =>
      cases hdr : byteDrop s.rest (n + 1) <;> rw [htk, hdr] at hl <;>
        exact absurd hl (by simp)
    | some remainder =>
      cases hdr : byteDrop s.rest (n + 1) with
      | none => rw [htk, hdr] at hl; exact absurd hl (by simp)
      | some rest' =>
        rw [htk, hdr] at hl
        dsimp only at hl
        split at hl
        · simp only [VLexStep.item.injEq] at hl
          obtain ⟨rfl, rfl⟩ := hl
          cases he
        · simp only [VLexStep.item.injEq] at hl
          obtain ⟨rfl, rfl⟩ := hl
          rfl
  | none =>
    rw [hf] at hl
    dsimp only at hl
    split at hl
    · simp only [VLexStep.item.injEq] at hl
      obtain ⟨rfl, rfl⟩ := hl
      cases he
    · simp only [VLexStep.item.injEq] at hl
      obtain ⟨rfl, rfl⟩ := hl
      rfl

theorem varNextGo_error_state (next : VariableLexer → VLexStep)
    {s : VariableLexer} {e : VariableLexerError} {s' : VariableLexer}
    (hl : varNextGo next s = .item (.error e) s') : s'.rest = [] := by
  obtain ⟨rest, byte, mode⟩ := s
  unfold varNextGo at hl
  split at hl
  · exact absurd hl (by simp)
  · cases mode with
    | var =>
      dsimp only at hl
      cases hlv : VariableLexer.lexVariable ⟨rest, byte, .filter⟩ with
      | none => rw [hlv] at hl; exact absurd hl (by simp)
      | some p =>
        obtain ⟨tok, s2⟩ := p
        rw [hlv] at hl
        simp only [VLexStep.item.injEq] at hl
        exact absurd hl.1 (by simp)
    | filter =>
      dsimp only at hl
      cases hf : strFind pipeStr rest with
      | none =>
        cases hc : strFind colonStr rest with
        | none =>
          rw [hf, hc] at hl
          dsimp only at hl
          cases he2 : VariableLexer.lexToEnd ⟨rest, byte, .filter⟩ .filter with
          | mk tok s2 =>
            rw [he2] at hl
            dsimp only at hl
            simp only [VLexStep.item.injEq] at hl
            exact absurd hl.1 (by simp)
        | some a =>
          rw [hf, hc] at hl
          dsimp only at hl
          cases hlt : VariableLexer.lexToNext ⟨rest, byte, .argument⟩ a .filter with
          | none => rw [hlt] at hl; exact absurd hl (by simp)
          | some p =>
            obtain ⟨tok, s2⟩ := p
            rw [hlt] at hl
            simp only [VLexStep.item.injEq] at hl
            exact absurd hl.1 (by simp)
      | some f =>
        cases hc : strFind colonStr rest with
        | none =>
          rw [hf, hc] at hl
          dsimp only at hl
          cases hlt : VariableLexer.lexToNext ⟨rest, byte, .filter⟩ f .filter with
          | none => rw [hlt] at hl; exact absurd hl (by simp)
          | some p =>
            obtain ⟨tok, s2⟩ := p
            rw [hlt] at hl
            simp only [VLexStep.item.injEq] at hl
            exact absurd hl.1 (by simp)
        | some a =>
          rw [hf, hc] at hl
          dsimp only at hl
          split at hl
          · cases hlt : VariableLexer.lexToNext ⟨rest, byte, .argument⟩ a .filter with
            | none => rw [hlt] at hl; exact absurd hl (by simp)
            | some p =>
              obtain ⟨tok, s2⟩ := p
              rw [hlt] at hl
              simp only [VLexStep.item.injEq] at hl
              exact absurd hl.1 (by simp)
          · cases hlt : VariableLexer.lexToNext ⟨rest, byte, .filter⟩ f .filter with
            | none => rw [hlt] at hl; exact absurd hl (by simp)
            | some p =>
              obtain ⟨tok, s2⟩ := p
              rw [hlt] at hl
              simp only [VLexStep.item.injEq] at hl
              exact absurd hl.1 (by simp)
    | argument =>
      dsimp only at hl
      cases rest with
      | nil => exact absurd hl (by simp)
      | cons c restTail =>
        dsimp only at hl
        by_cases hund : c = '_'
        · rw [if_pos hund] at hl
          subst hund
          split at hl
          · rename_i chars2 hne
            cases hlt : lexTranslatedGo next ⟨'_' :: '(' :: chars2, byte, .filter⟩
                chars2 with
            | fuelOut => rw [hlt] at hl; exact absurd hl (by simp)
            | panicked => rw [hlt] at hl; exact absurd hl (by simp)
            | res token s2 rem =>
              rw [hlt] at hl
              cases token with
              | error e2 =>
                have h2 : s2.rest = [] := lexTranslatedGo_error_state next hlt
                obtain ⟨r2, b2, m2⟩ := s2
                dsimp only at h2
                subst h2
                dsimp only at hl
                rw [remainderCheck_nil] at hl
                simp only [VLexStep.item.injEq] at hl
                obtain ⟨-, rfl⟩ := hl
                rfl
              | ok tok0 => exact remainderCheck_error_state hl rfl
          · simp only [VLexStep.item.injEq] at hl
            obtain ⟨-, rfl⟩ := hl
            rfl
        · rw [if_neg hund] at hl
          by_cases hq : c = '\'' ∨ c = '"'
          · rw [if_pos hq] at hl
            cases hlt : lexTextGo next ⟨c :: restTail, byte, .filter⟩ restTail c 1 with
            | fuelOut => rw [hlt] at hl; exact absurd hl (by simp)
            | panicked => rw [hlt] at hl; exact absurd hl (by simp)
            | res token s2 rem =>
              rw [hlt] at hl
              cases token with
              | error e2 =>
                have h2 : s2.rest = [] := lexTextGo_error_state next restTail _ c 1 hlt
                obtain ⟨r2, b2, m2⟩ := s2
                dsimp only at h2
                subst h2
                dsimp only at hl
                rw [remainderCheck_nil] at hl
                simp only [VLexStep.item.injEq] at hl
                obtain ⟨-, rfl⟩ := hl
                rfl
              | ok tok0 => exact remainderCheck_error_state hl rfl
          · rw [if_neg hq] at hl
            by_cases hdig : isAsciiDigit c = true
            · rw [if_pos hdig] at hl
              cases hn : VariableLexer.lexNumeric ⟨c :: restTail, byte, .filter⟩ with
              | none => rw [hn] at hl; exact absurd hl (by simp)
              | some p =>
                obtain ⟨tok, s2⟩ := p
                rw [hn] at hl
                exact remainderCheck_error_state hl rfl
            · rw [if_neg hdig] at hl
              cases hlv : VariableLexer.lexVariable ⟨c :: restTail, byte, .filter⟩ with
              | none => rw [hlv] at hl; exact absurd hl (by simp)
              | some p =>
                obtain ⟨tok, s2⟩ := p
                rw [hlv] at hl
                simp only [VLexStep.item.injEq] at hl
                exact absurd hl.1 (by simp)

theorem varNextGo_done_of_nil (next : VariableLexer → VLexStep)
    {s : VariableLexer} (h : s.rest = []) : varNextGo next s = .done := by
  unfold varNextGo
  rw [if_pos h]

theorem varNext_error_state {fuel : Nat} {s : VariableLexer}
    {e : VariableLexerError} {s' : VariableLexer}
    (hl : varNext fuel s = .item (.error e) s') : s'.rest = [] := by
  cases fuel with
  | zero => exact absurd hl (by simp [varNext])
  | succ fuel => exact varNextGo_error_state (varNext fuel) hl

theorem varRun_nil_rest : ∀ {outer fuel : Nat} {s : VariableLexer}
    {rs : List VResult}, s.rest = [] → varRun outer fuel s = .out rs → rs = [] := by
  intro outer fuel s rs hnil hr
  cases outer with
  | zero => exact absurd hr (by simp [varRun])
  | succ outer =>
    unfold varRun at hr
    cases fuel with
    | zero => exact absurd hr (by simp [varNext])
    | succ fuel =>
      rw [show varNext (fuel + 1) s = varNextGo (varNext fuel) s from rfl,
        varNextGo_done_of_nil (varNext fuel) hnil] at hr
      simp only [RunRes.out.injEq] at hr
      exact hr.symm

theorem varRun_error_last : ∀ (outer : Nat) {fuel : Nat} {s : VariableLexer}
    {rs rs1 rs2 : List VResult} {e : VariableLexerError},
    varRun outer fuel s = .out rs → rs = rs1 ++ .error e :: rs2 → rs2 = [] := by
  intro outer
  induction outer with
  | zero => intro fuel s rs rs1 rs2 e hr hsplit; exact absurd hr (by simp [varRun])
  | succ outer ih =>
    intro fuel s rs rs1 rs2 e hr hsplit
    unfold varRun at hr
    cases hn : varNext fuel s with
    | fuelOut => rw [hn] at hr; exact absurd hr (by simp)
    | panicked => rw [hn] at hr; exact absurd hr (by simp)
    | done =>
      rw [hn] at hr
      simp only [RunRes.out.injEq] at hr
      subst hr
      exact absurd hsplit.symm (List.append_ne_nil_of_right_ne_nil rs1 (by simp))
    | item r0 s2 =>
      rw [hn] at hr
      dsimp only at hr
      cases hrr : varRun outer fuel s2 with
      | fuelOut => rw [hrr] at hr; exact absurd hr (by simp)
      | panicked => rw [hrr] at hr; exact absurd hr (by simp)
      | out rsTail =>
        rw [hrr] at hr
        simp only [RunRes.out.injEq] at hr
        subst hr
        cases rs1 with
        | nil =>
          simp only [List.nil_append, List.cons.injEq] at hsplit
          obtain ⟨rfl, rfl⟩ := hsplit
          have hnil : s2.rest = [] := varNext_error_state hn
          exact varRun_nil_rest hnil hrr
        | cons r1 rs1' =>
          simp only [List.cons_append, List.cons.injEq] at hsplit
          obtain ⟨rfl, hsplit'⟩ := hsplit
          exact ih hrr hsplit'

theorem parseLoop_tokens (template : Str) :
    ∀ (fuel : Nat) (lx : Lexer) (nodes : List TokenTree),
    parseLoop template fuel lx = .ok nodes →
    ∃ ts, lexerRun fuel lx = .out ts ∧ nodesMatch template ts nodes = true := by
  intro fuel
  induction fuel with
  | zero => intro lx nodes h; exact absurd h (by simp [parseLoop])
  | succ fuel ih =>
    intro lx nodes h
    unfold parseLoop at h
    cases hn : lx.next with
    | fuelOut => rw [hn] at h; exact absurd h (by simp)
    | panicked => rw [hn] at h; exact absurd h (by simp)
    | ok o =>
      rw [hn] at h
      cases o with
      | none =>
        dsimp only at h
        simp only [ParseRes.ok.injEq] at h
        subst h
        refine ⟨[], ?_, rfl⟩
        simp only [lexerRun, hn]
      | some p =>
        obtain ⟨tok, lx'⟩ := p
        dsimp only at h
        cases tok with
        | comment c a =>
          dsimp only at h
          obtain ⟨ts, hrun, hm⟩ := ih lx' nodes h
          refine ⟨.comment c a :: ts, ?_, ?_⟩
          · simp only [lexerRun, hn, hrun]
          · simpa [nodesMatch] using hm
        | tag c a => exact absurd h (by simp)
        | text c a =>
          dsimp only at h
          cases hrec : parseLoop template fuel lx' with
          | fuelOut => rw [hrec] at h; exact absurd h (by simp)
          | panicked => rw [hrec] at h; exact absurd h (by simp)
          | error e => rw [hrec] at h; exact absurd h (by simp)
          | ok nodes' =>
            rw [hrec] at h
            simp only [ParseRes.ok.injEq] at h
            subst h
            obtain ⟨ts, hrun, hm⟩ := ih lx' nodes' hrec
            refine ⟨.text c a :: ts, ?_, ?_⟩
            · simp only [lexerRun, hn, hrun]
            · simp [nodesMatch, nodeOfTok, hm]
        | var c a =>
          dsimp only at h
          cases hv : parseVariable template c (toSpanLen a) with
          | fuelOut => rw [hv] at h; exact absurd h (by simp)
          | panicked => rw [hv] at h; exact absurd h (by simp)
          | error e => rw [hv] at h; exact absurd h (by simp)
          | ok node =>
            rw [hv] at h
            dsimp only at h
            cases hrec : parseLoop template fuel lx' with
            | fuelOut => rw [hrec] at h; exact absurd h (by simp)
            | panicked => rw [hrec] at h; exact absurd h (by simp)
            | error e => rw [hrec] at h; exact absurd h (by simp)
            | ok nodes' =>
              rw [hrec] at h
              simp only [ParseRes.ok.injEq] at h
              subst h
              obtain ⟨ts, hrun, hm⟩ := ih lx' nodes' hrec
              refine ⟨.var c a :: ts, ?_, ?_⟩
              · simp only [lexerRun, hn, hrun]
              · simp [nodesMatch, nodeOfTok, hv, hm]

theorem parseFilters_chain (template : Str) :
    ∀ (fts : List FilterToken) (node : TokenTree),
    (∀ ft ∈ fts, ft.argument = none) →
    (∀ ft ∈ fts, ∃ name, byteSlice template ft.at_.1 (ft.at_.1 + ft.at_.2) = some name ∧
       name ≠ "default".data) →
    parseFilters template node (fts.map .ok) =
      .ok (specFilterChain template node fts) := by
  intro fts
  induction fts with
  | nil => intro node h1 h2; rfl
  | cons ft fts ih =>
    intro node h1 h2
    obtain ⟨name, hname, hnd⟩ := h2 ft (List.mem_cons_self _ _)
    have harg : ft.argument = none := h1 ft (List.mem_cons_self _ _)
    have h1' : ∀ f ∈ fts, FilterToken.argument f = none :=
      fun f hf => h1 f (List.mem_cons_of_mem _ hf)
    have h2' : ∀ f ∈ fts, ∃ name,
        byteSlice template f.at_.1 (f.at_.1 + f.at_.2) = some name ∧
          name ≠ "default".data :=
      fun f hf => h2 f (List.mem_cons_of_mem _ hf)
    show parseFilters template node (.ok ft :: fts.map .ok) = _
    unfold parseFilters
    rw [harg]
    dsimp only
    unfold filterNew
    rw [hname]
    dsimp only
    rw [if_neg hnd]
    by_cases hlow : name = "lower".data
    · rw [if_pos hlow]
      dsimp only
      rw [ih _ h1' h2']
      have hft : specFilterType template ft.at_ = .lower := by
        unfold specFilterType
        rw [hname, hlow]
        simp
      simp only [specFilterChain, hft]
    · rw [if_neg hlow]
      dsimp only
      rw [ih _ h1' h2']
      have hft : specFilterType template ft.at_ = .external none := by
        unfold specFilterType
        rw [hname]
        rw [if_neg (by simpa using hlow)]
      simp only [specFilterChain, hft]

theorem isCloserCheck_spec {inner verbatim suffix : Str}
    (h : byteDrop (trim inner) 3 = some suffix) :
    isCloserCheck (trim inner) verbatim = some (suffix == verbatim) := by
  unfold isCloserCheck
  have hlen := byteDrop_bytesLen h
  rw [if_neg (by omega), h]

/-! ## The claims -/

/-- C1 (corrected): whenever the structural lexer runs to completion on a
template, the emitted tokens' spans chain contiguously from byte 0 to the
byte length of the input (no gaps, no overlaps, each span non-empty, in
increasing order), and concatenating the input's slice at each span
reconstructs the input exactly.  The spec's unconditional "for every UTF-8
template string" fails: `Lexer::next` can panic (`&rest[2..1]` on the
input `\x7b%\x7d` — see the counterexample), so the guarantee holds only
for runs that return a token list. -/
theorem claim_C1 {t : Str} {ts : List Token} (h : lexTemplate t = .out ts) :
    spanChain 0 ts (bytesLen t) = true ∧ sliceConcat t ts = some t :=
  lexerRun_spec (bytesLen t + 1) t (Lexer.new t) ts (by cases t <;> rfl) h

theorem claim_C1_witness :
    spanChain 0 [Token.text "x".data (0, 1), Token.var " y ".data (1, 8)]
        (bytesLen "x\x7b\x7b y \x7d\x7d".data) = true ∧
      sliceConcat "x\x7b\x7b y \x7d\x7d".data
        [Token.text "x".data (0, 1), Token.var " y ".data (1, 8)] =
        some "x\x7b\x7b y \x7d\x7d".data :=
  @claim_C1 "x\x7b\x7b y \x7d\x7d".data
    [Token.text "x".data (0, 1), Token.var " y ".data (1, 8)] (by decide)

theorem claim_C1_counterexample : lexTemplate "\x7b%\x7d".data = .panicked := by
  decide

/-- C2 (corrected): whenever `Parser::parse` returns a node list, the nodes
are in document order, exactly one per non-comment structural token.  The
spec's "it never panics or aborts — in particular also for templates
containing `\x7b% ... %\x7d` tag tokens" fails in exactly that case:
`Parser::parse_tag` is `todo!()`, so every template whose token stream
contains a `Tag` token panics (see the counterexample). -/
theorem claim_C2 {t : Str} {nodes : List TokenTree}
    (h : parseTemplate t = .ok nodes) :
    ∃ ts, lexTemplate t = .out ts ∧ nodesMatch t ts nodes = true :=
  parseLoop_tokens t (bytesLen t + 1) (Lexer.new t) nodes h

theorem claim_C2_witness :
    ∃ ts, lexTemplate "a\x7b# skip #\x7d\x7b\x7b b \x7d\x7d".data = .out ts ∧
      nodesMatch "a\x7b# skip #\x7d\x7b\x7b b \x7d\x7d".data ts
        [TokenTree.text ⟨(0, 1)⟩, TokenTree.var ⟨(14, 1)⟩] = true :=
  @claim_C2 "a\x7b# skip #\x7d\x7b\x7b b \x7d\x7d".data
    [TokenTree.text ⟨(0, 1)⟩, TokenTree.var ⟨(14, 1)⟩] (by decide)

theorem claim_C2_counterexample :
    parseTemplate "\x7b% x %\x7d".data = .panicked := by decide

/-- C3 (corrected): content-slice recovery.  For a backslash-free template,
every token the structural lexer emits re-derives its content by slicing
the template at its content span (span minus the delimiter bytes of its
kind), and every `Ok` token any run of the expression lexer emits — the
lexer being started on a segment of the template at its absolute byte
offset, as `VariableLexer::newAt` does — likewise re-derives its content
by slicing the template at its content span.  Two corrections to the
spec's wording: parser-level spans are `(start, len)` pairs, not
`(start, end)` (see the counterexample: `foo` in `\x7b\x7b foo \x7d\x7d`
is recorded as `(3, 3)`), and the backslash condition is needed because
the broken escape path of `lex_text` (C8) corrupts spans. -/
theorem claim_C3 {t : Str} (hb : '\\' ∉ t) :
    (∀ fuel ts, lexerRun fuel (Lexer.new t) = .out ts →
       ∀ tok ∈ ts, TokenContentOK t tok) ∧
    (∀ variable_ tail start outer fuel rs,
       byteDrop t start = some (variable_ ++ tail) →
       varRun outer fuel (VariableLexer.newAt variable_ start) = .out rs →
       ∀ r ∈ rs, ∀ tok, r = .ok tok → VTokenContentOK t tok) := by
  constructor
  · intro fuel ts h tok htok
    exact lexerRun_contentOK fuel t (Lexer.new t) ts (by cases t <;> rfl) h tok htok
  · intro variable_ tail start outer fuel rs hd hr r hm tok htk
    exact varRun_contentOK hb outer (newAt_vinv hd) hr r hm tok htk

theorem claim_C3_witness :
    (∀ fuel ts, lexerRun fuel (Lexer.new "\x7b\x7b n \x7d\x7d".data) = .out ts →
       ∀ tok ∈ ts, TokenContentOK "\x7b\x7b n \x7d\x7d".data tok) ∧
    (∀ variable_ tail start outer fuel rs,
       byteDrop "\x7b\x7b n \x7d\x7d".data start = some (variable_ ++ tail) →
       varRun outer fuel (VariableLexer.newAt variable_ start) = .out rs →
       ∀ r ∈ rs, ∀ tok, r = .ok tok →
         VTokenContentOK "\x7b\x7b n \x7d\x7d".data tok) :=
  @claim_C3 "\x7b\x7b n \x7d\x7d".data (by decide)

theorem claim_C3_counterexample :
    parseTemplate "\x7b\x7b foo \x7d\x7d".data = .ok [.var ⟨(3, 3)⟩] ∧
    byteSlice "\x7b\x7b foo \x7d\x7d".data 3 3 = some [] ∧
    byteSlice "\x7b\x7b foo \x7d\x7d".data 3 (3 + 3) = some "foo".data :=
  ⟨by decide, by decide, by decide⟩

/-- C4 (corrected): for a chain of argument-less filters none of which is
named `default`, the parser folds the chain strictly left-associatively,
first filter innermost, each filter wrapping the accumulated tree as its
`left` child; the spec's example `\x7b\x7b foo|bar|baz \x7d\x7d` parses to
`Filter(baz, left=Filter(bar, left=Variable(foo)))`.  The spec's
unconditional "for every ... chain of filters" fails: a `default` filter
without an argument aborts the parse with `MissingArgument` instead of
producing the node (see the counterexample). -/
theorem claim_C4 (template : Str) (node : TokenTree) (fts : List FilterToken)
    (h1 : ∀ ft ∈ fts, ft.argument = none)
    (h2 : ∀ ft ∈ fts, ∃ name,
        byteSlice template ft.at_.1 (ft.at_.1 + ft.at_.2) = some name ∧
          name ≠ "default".data) :
    parseFilters template node (fts.map .ok) =
        .ok (specFilterChain template node fts) ∧
      parseTemplate "\x7b\x7b foo|bar|baz \x7d\x7d".data =
        .ok [.filter (11, 3) (.filter (7, 3) (.var ⟨(3, 3)⟩) (.external none))
          (.external none)] :=
  ⟨parseFilters_chain template fts node h1 h2, by decide⟩

theorem claim_C4_witness :
    parseFilters "\x7b\x7b foo|bar|baz \x7d\x7d".data (.var ⟨(3, 3)⟩)
        ([⟨(7, 3), none⟩, ⟨(11, 3), none⟩].map FilterItem.ok) =
      .ok (specFilterChain "\x7b\x7b foo|bar|baz \x7d\x7d".data (.var ⟨(3, 3)⟩)
        [⟨(7, 3), none⟩, ⟨(11, 3), none⟩]) ∧
    parseTemplate "\x7b\x7b foo|bar|baz \x7d\x7d".data =
      .ok [.filter (11, 3) (.filter (7, 3) (.var ⟨(3, 3)⟩) (.external none))
        (.external none)] :=
  claim_C4 "\x7b\x7b foo|bar|baz \x7d\x7d".data (.var ⟨(3, 3)⟩)
    [⟨(7, 3), none⟩, ⟨(11, 3), none⟩]
    (by intro ft hft
        rcases List.mem_cons.mp hft with rfl | hft
        · rfl
        · rcases List.mem_cons.mp hft with rfl | hft
          · rfl
          · cases hft)
    (by intro ft hft
        rcases List.mem_cons.mp hft with rfl | hft
        · exact ⟨"bar".data, by decide, by decide⟩
        · rcases List.mem_cons.mp hft with rfl | hft
          · exact ⟨"baz".data, by decide, by decide⟩
          · cases hft)

theorem claim_C4_counterexample :
    parseTemplate "\x7b\x7b foo|default|baz \x7d\x7d".data =
      .error (.missingArgument (7, 7)) := by decide

/-- C5 (corrected): the closing-tag test of verbatim mode: given that byte
index 3 of the candidate's trimmed inner content is in bounds and on a
character boundary (`byteDrop ... 3` succeeds), the candidate closes the
block iff the content from byte 3 onward equals the remembered verbatim
identifier; a non-matching tag is passed through as literal text, the
preceding text being emitted as one `Text` token followed by the closer as
a `Tag` token (second conjunct: an unqualified `\x7b% endverbatim %\x7d`
does not close a `\x7b% verbatim special %\x7d` block).  The spec's
unconditional "every candidate tag" fails: when byte 3 falls inside a
multi-byte character the check panics instead (see the counterexample),
and the length test is in bytes, not characters. -/
theorem claim_C5 {inner verbatim suffix : Str}
    (h : byteDrop (trim inner) 3 = some suffix) :
    (isCloserCheck (trim inner) verbatim = some true ↔ suffix = verbatim) ∧
    lexTemplate
        "\x7b% verbatim special %\x7da\x7b% endverbatim %\x7db\x7b% endverbatim special %\x7d".data =
      .out [.tag " verbatim special ".data (0, 22),
        .text "a\x7b% endverbatim %\x7db".data (22, 41),
        .tag " endverbatim special ".data (41, 66)] := by
  constructor
  · rw [isCloserCheck_spec h]
    simp [beq_iff_eq]
  · decide

theorem claim_C5_witness :
    (isCloserCheck (trim " endverbatim special ".data) "verbatim special".data =
        some true ↔ "verbatim special".data = "verbatim special".data) ∧
    lexTemplate
        "\x7b% verbatim special %\x7da\x7b% endverbatim %\x7db\x7b% endverbatim special %\x7d".data =
      .out [.tag " verbatim special ".data (0, 22),
        .text "a\x7b% endverbatim %\x7db".data (22, 41),
        .tag " endverbatim special ".data (41, 66)] :=
  @claim_C5 " endverbatim special ".data "verbatim special".data
    "verbatim special".data (by decide)

theorem claim_C5_counterexample :
    lexTemplate "\x7b% verbatim %\x7dy\x7b% b€ %\x7d".data = .panicked := by
  decide

/-- C6 (confirmed): `Filter::new` dispatch on the filter-name slice:
`default` without an argument fails with `MissingArgument` at the
filter-name span and with one becomes `FilterType::Default`; `lower` with
an argument fails with `UnexpectedArgument` at the argument's span and
without becomes `FilterType::Lower`; any other name becomes
`FilterType::External` carrying the optional argument unvalidated. -/
theorem claim_C6 {template : Str} {at_ : Nat × Nat} {left : TokenTree}
    {name : Str}
    (h : byteSlice template at_.1 (at_.1 + at_.2) = some name) :
    (name = "default".data →
       filterNew template at_ left none = .error (.missingArgument at_) ∧
       ∀ r, filterNew template at_ left (some r) =
         .ok (.filter at_ left (.default r))) ∧
    (name = "lower".data →
       filterNew template at_ left none = .ok (.filter at_ left .lower) ∧
       ∀ r, filterNew template at_ left (some r) =
         .error (.unexpectedArgument r.at_)) ∧
    (name ≠ "default".data → name ≠ "lower".data →
       ∀ right, filterNew template at_ left right =
         .ok (.filter at_ left (.external right))) := by
  refine ⟨?_, ?_, ?_⟩
  · intro hd
    constructor
    · unfold filterNew; rw [h]; dsimp only; rw [if_pos hd]
    · intro r; unfold filterNew; rw [h]; dsimp only; rw [if_pos hd]
  · intro hlw
    have hnd : name ≠ "default".data := by rw [hlw]; decide
    constructor
    · unfold filterNew; rw [h]; dsimp only; rw [if_neg hnd, if_pos hlw]
    · intro r; unfold filterNew; rw [h]; dsimp only; rw [if_neg hnd, if_pos hlw]
  · intro hnd hnl right
    unfold filterNew; rw [h]; dsimp only; rw [if_neg hnd, if_neg hnl]

theorem claim_C6_witness :
    filterNew "\x7b\x7b a|lower \x7d\x7d".data (5, 5) (.var ⟨(3, 1)⟩) none =
      .ok (.filter (5, 5) (.var ⟨(3, 1)⟩) .lower) :=
  ((@claim_C6 "\x7b\x7b a|lower \x7d\x7d".data (5, 5) (.var ⟨(3, 1)⟩)
    "lower".data (by decide)).2.1 rfl).1

/-- C7 (confirmed): `ArgumentToken::parse` on a `Numeric` token first tries
an arbitrary-precision integer parse of the token's content; on failure a
float parse; when both fail the result is an `InvalidNumber` error at the
numeric token's span — never a silent zero or NaN.  See the witness for
the spec's examples: `5.2e3` becomes `Float(5200.0)`,
`99999999999999999` the exact integer, and `9.9.9` an `InvalidNumber`. -/
theorem claim_C7 {template : Str} {a : ArgumentToken} {content : Str}
    (hn : a.argumentType = .numeric)
    (hs : byteSlice template a.at_.1 (a.at_.1 + a.at_.2) = some content) :
    (∀ n, intParse content = some n →
       a.parseArg template = .ok ⟨a.at_, .int n⟩) ∧
    (intParse content = none → ∀ q, floatParse content = some q →
       a.parseArg template = .ok ⟨a.at_, .float q⟩) ∧
    (intParse content = none → floatParse content = none →
       a.parseArg template = .error (.invalidNumber a.at_)) := by
  refine ⟨?_, ?_, ?_⟩
  · intro n hi
    unfold ArgumentToken.parseArg
    rw [hn]
    dsimp only
    rw [hs]
    dsimp only
    rw [hi]
  · intro hi q hf
    unfold ArgumentToken.parseArg
    rw [hn]
    dsimp only
    rw [hs]
    dsimp only
    rw [hi]
    dsimp only
    rw [hf]
  · intro hi hf
    unfold ArgumentToken.parseArg
    rw [hn]
    dsimp only
    rw [hs]
    dsimp only
    rw [hi]
    dsimp only
    rw [hf]

theorem claim_C7_witness :
    (ArgumentToken.parseArg ⟨(0, 5), .numeric⟩ "5.2e3".data =
       .ok ⟨(0, 5), .float 5200⟩) ∧
    (ArgumentToken.parseArg ⟨(0, 17), .numeric⟩ "99999999999999999".data =
       .ok ⟨(0, 17), .int 99999999999999999⟩) ∧
    (ArgumentToken.parseArg ⟨(0, 5), .numeric⟩ "9.9.9".data =
       .error (.invalidNumber (0, 5))) :=
  ⟨(@claim_C7 "5.2e3".data ⟨(0, 5), .numeric⟩ "5.2e3".data rfl
      (by decide)).2.1 (by decide) 5200 (by decide),
   (@claim_C7 "99999999999999999".data ⟨(0, 17), .numeric⟩
      "99999999999999999".data rfl (by decide)).1 99999999999999999 (by decide),
   (@claim_C7 "9.9.9".data ⟨(0, 5), .numeric⟩ "9.9.9".data rfl
      (by decide)).2.2 (by decide) (by decide)⟩

/-- C8 (code_bug): the escape path of `VariableLexer::lex_text` is broken:
on `\` the source calls `self.next()` (the lexer's own `Iterator::next`,
re-entering the lexer from the top on the not-yet-consumed rest) instead
of advancing the inner character iterator, so the escaped character is
never skipped and the lexer state is corrupted.  On the spec's own example
— a filter argument `'a\'b'` — the escape terminates the string scan at
the escaped quote and the subsequent slicing panics, instead of producing
one string token whose content includes the escape sequence. -/
theorem claim_C8 :
    lexVariableContent "foo|bar:'a\\'b'".data = .panicked ∧
    parseTemplate "\x7b\x7b foo|bar:'a\\'b' \x7d\x7d".data = .panicked :=
  ⟨by decide, by decide⟩

/-- C9 (confirmed): fail-fast behaviour.  (1) When the expression lexer
yields an error item, the state it leaves behind has an empty rest, and the
next call yields `done` — so after the first error no further items are
produced and the remaining content of the variable tag is discarded;
consequently (2) in any completed run of the expression lexer an error can
only be the last item.  (3) The parser aborts on the first error: when a
variable token's contents fail to parse, `Parser::parse` returns exactly
that error, with no partial node list (`ParseRes.error` carries no
nodes). -/
theorem claim_C9 :
    (∀ (fuel : Nat) (s : VariableLexer) (e : VariableLexerError)
       (s' : VariableLexer),
       varNext fuel s = .item (.error e) s' →
       s'.rest = [] ∧ ∀ next, varNextGo next s' = .done) ∧
    (∀ (outer fuel : Nat) (s : VariableLexer) (rs rs1 rs2 : List VResult)
       (e : VariableLexerError),
       varRun outer fuel s = .out rs → rs = rs1 ++ .error e :: rs2 →
       rs2 = []) ∧
    (∀ (template : Str) (fuel : Nat) (lx lx' : Lexer) (c : Str)
       (a : Nat × Nat) (e : ParseError),
       lx.next = .ok (some (.var c a, lx')) →
       parseVariable template c (toSpanLen a) = .error e →
       parseLoop template (fuel + 1) lx = .error e) := by
  refine ⟨?_, ?_, ?_⟩
  · intro fuel s e s' hl
    have hnil := varNext_error_state hl
    exact ⟨hnil, fun next => varNextGo_done_of_nil next hnil⟩
  · intro outer fuel s rs rs1 rs2 e hr hs
    exact varRun_error_last outer hr hs
  · intro template fuel lx lx' c a e hn hv
    unfold parseLoop
    rw [hn]
    dsimp only
    rw [hv]

/-- C10 (code_bug): the structural lexer's verbatim-mode closing check
slices the candidate's trimmed inner content at byte index 3
(`&inner[3..]` at `src/lex.rs:131`) without checking that index 3 is a
character boundary.  When the trimmed content is e.g. `a€` (the `€` spans
bytes 1..4, so byte 3 is inside it), Rust panics; `Lexer::next` is
therefore not panic-free. -/
theorem claim_C10 :
    lexTemplate "\x7b% verbatim %\x7dx\x7b% a€ %\x7d".data = .panicked ∧
    isCloserCheck (trim " a€ ".data) "verbatim".data = none :=
  ⟨by decide, by decide⟩

end DjangoRustyTemplates
